import Mathlib

/-!
Shallow embedding of the qbit VS Code extension's source-analysis engine
(`src/parser.ts`, `src/diagnostics.ts`) and proofs about it.

Source text is modelled as `String`; a line's characters as `List Char`;
JS numbers occurring in positions/lengths as `Int` (all arithmetic involved
is exact integer arithmetic); JS exceptions as `Except String`; a possibly
absent JS object field as `Option`.
-/

set_option autoImplicit false

namespace Qbit

/-! ### JS-style primitive helpers on lists of characters -/

/-- JS `source.split('\n')`: splitting on every newline, keeping empty
segments (so the result always has one more segment than there are
newlines; splitting the empty string gives `[[]]`). -/
def splitLines (l : List Char) : List (List Char) :=
  match l with
  | [] => [[]]
  | c :: cs =>
    if c = '\n' then [] :: splitLines cs
    else
      match splitLines cs with
      | [] => [[c]]
      | x :: xs => (c :: x) :: xs

/-- Number of occurrences of `c` in `l` (JS `line.match(/c/g)` length, or 0). -/
def countChar (c : Char) (l : List Char) : Nat := l.count c

/-- JS `String.prototype.indexOf` for a single character: 0-based index of the
first occurrence, `-1` when absent. -/
def indexOfC (l : List Char) (c : Char) : Int :=
  match l with
  | [] => -1
  | x :: xs => if x = c then 0 else (if indexOfC xs c = -1 then -1 else indexOfC xs c + 1)

/-- JS `String.prototype.lastIndexOf` for a single character: 0-based index of
the last occurrence, `-1` when absent. -/
def lastIndexOf (l : List Char) (c : Char) : Int :=
  match l with
  | [] => -1
  | x :: xs =>
    if lastIndexOf xs c = -1 then (if x = c then 0 else -1) else lastIndexOf xs c + 1

/-! ### Raw parse errors and the fallback analyzer (`Parser.simpleValidation`) -/

/-- `ParseError` from `src/parser.ts`. -/
structure ParseError where
  message : String
  line : Int
  column : Int
  length : Int
deriving DecidableEq

/-- The body of the `lines.forEach` loop in `Parser.simpleValidation`:
diagnostics contributed by the line `line` with 0-based index `lineNumber`. -/
def lineErrors (lineNumber : Nat) (line : List Char) : List ParseError :=
  (if countChar '"' line % 2 ≠ 0 then
    [{ message := "Unterminated string literal"
       line := (lineNumber : Int) + 1
       column := lastIndexOf line '"' + 1
       length := (line.length : Int) - lastIndexOf line '"' }]
  else []) ++
  (if countChar '{' line ≠ countChar '}' line then
    [{ message := "Unmatched brace"
       line := (lineNumber : Int) + 1
       column := indexOfC line (if countChar '{' line > countChar '}' line then '{' else '}') + 1
       length := 1 }]
  else [])

/-- `Parser.simpleValidation` from `src/parser.ts`. -/
def simpleValidation (source : String) : List ParseError :=
  ((splitLines source.data).enum).flatMap (fun p => lineErrors p.1 p.2)

/-! ### The parser bridge (`Parser.parse`) -/

/-- `ParseResult` from `src/parser.ts`. -/
structure ParseResult where
  success : Bool
  ast : Option String
  errors : List ParseError
deriving DecidableEq

/-- Behaviour of the external WASM authoritative parser on a given call, as
observed by `Parser.parse`: initialization failed (so `this.initialized` is
false and `parse_code` is never reached), or `parse_code` threw, or
`parse_code` returned a result. -/
inductive WasmParse where
  | unavailable : WasmParse
  | throws : String → WasmParse
  | returns : ParseResult → WasmParse
deriving DecidableEq

/-- `Parser.parse` from `src/parser.ts`: the whole body is wrapped in
`try ... catch`, so an initialization failure or a throwing `parse_code`
falls through to the fallback result built from `simpleValidation`. -/
def Parser.parse (w : WasmParse) (source : String) : ParseResult :=
  match w with
  | .returns r => r
  | .unavailable | .throws _ =>
    let errors := simpleValidation source
    { success := errors.length == 0
      ast := if errors.length == 0 then some "Fallback AST" else none
      errors := errors }

/-! ### Identifier scanning (the regex `[a-zA-Z_][a-zA-Z0-9_]*`)

`Parser.getSymbolAtPosition` repeatedly runs the identifier regex on the
current line with the `g` flag.  We model the successive regex matches by a
left-to-right maximal-munch scan producing `(startIndex, matchedChars)`
pairs.  The scan is written with explicit fuel to keep it structurally
recursive (and hence kernel-computable); each step consumes at least one
character, so `l.length + 1` fuel always suffices, and the fuel is proved
irrelevant below. -/

/-- First character class of the identifier regex: `[a-zA-Z_]`. -/
def isIdentStart (c : Char) : Bool := c.isAlpha || c == '_'

/-- Continuation character class of the identifier regex: `[a-zA-Z0-9_]`. -/
def isIdentChar (c : Char) : Bool := c.isAlphanum || c == '_'

theorem isIdentChar_of_isIdentStart {c : Char} (h : isIdentStart c = true) :
    isIdentChar c = true := by
  unfold isIdentStart at h
  unfold isIdentChar Char.isAlphanum
  rcases Bool.or_eq_true_iff.mp h with h | h <;> simp [h]

theorem dropWhile_length_le {α} (p : α → Bool) (l : List α) :
    (l.dropWhile p).length ≤ l.length := by
  induction l with
  | nil => simp
  | cons a l ih =>
    rw [List.dropWhile_cons]
    split
    · exact Nat.le_trans ih (Nat.le_succ _)
    · exact Nat.le_refl _

/-- Fuelled scan for all matches of `[a-zA-Z_][a-zA-Z0-9_]*` with start
indices relative to the head of the list. -/
def scanTokensF : Nat → List Char → List (Nat × List Char)
  | 0, _ => []
  | _ + 1, [] => []
  | fuel + 1, c :: cs =>
    if isIdentStart c then
      (0, c :: cs.takeWhile isIdentChar) ::
        (scanTokensF fuel (cs.dropWhile isIdentChar)).map
          (fun p => (p.1 + (c :: cs.takeWhile isIdentChar).length, p.2))
    else
      (scanTokensF fuel cs).map (fun p => (p.1 + 1, p.2))

theorem scanTokensF_irrel : ∀ (f₁ : Nat) (f₂ : Nat) (l : List Char),
    l.length < f₁ → l.length < f₂ → scanTokensF f₁ l = scanTokensF f₂ l := by
  intro f₁
  induction f₁ with
  | zero => intro f₂ l h _; exact absurd h (Nat.not_lt_zero _)
  | succ f ih =>
    intro f₂ l h1 h2
    match f₂, l with
    | f₂ + 1, [] => rfl
    | f₂ + 1, c :: cs =>
      simp only [scanTokensF]
      have hdw : (cs.dropWhile isIdentChar).length ≤ cs.length :=
        dropWhile_length_le _ _
      have hlen : cs.length < f := by simpa using Nat.lt_of_succ_lt_succ h1
      have hlen2 : cs.length < f₂ := by simpa using Nat.lt_of_succ_lt_succ h2
      split
      · rw [ih f₂ (cs.dropWhile isIdentChar) (Nat.lt_of_le_of_lt hdw hlen)
          (Nat.lt_of_le_of_lt hdw hlen2)]
      · rw [ih f₂ cs hlen hlen2]

/-- All matches of the identifier regex on `l`, via the fuelled scan. -/
def scanTokens (l : List Char) : List (Nat × List Char) :=
  scanTokensF (l.length + 1) l

theorem scanTokens_nil : scanTokens [] = [] := rfl

theorem scanTokens_cons (c : Char) (cs : List Char) :
    scanTokens (c :: cs) =
      if isIdentStart c then
        (0, c :: cs.takeWhile isIdentChar) ::
          (scanTokens (cs.dropWhile isIdentChar)).map
            (fun p => (p.1 + (c :: cs.takeWhile isIdentChar).length, p.2))
      else
        (scanTokens cs).map (fun p => (p.1 + 1, p.2)) := by
  show scanTokensF (cs.length + 2) (c :: cs) = _
  simp only [scanTokensF]
  have hdw : (cs.dropWhile isIdentChar).length ≤ cs.length := dropWhile_length_le _ _
  rw [scanTokensF_irrel (cs.length + 1) ((cs.dropWhile isIdentChar).length + 1)
        (cs.dropWhile isIdentChar) (by omega) (by omega),
      scanTokensF_irrel (cs.length + 1) (cs.length + 1) cs (by omega) (by omega)]
  rfl

instance {ε α : Type} [DecidableEq ε] [DecidableEq α] : DecidableEq (Except ε α) :=
  fun x y =>
  match x, y with
  | .ok a, .ok b =>
    if h : a = b then isTrue (by rw [h]) else isFalse (fun hh => h (Except.ok.inj hh))
  | .error e, .error f =>
    if h : e = f then isTrue (by rw [h]) else isFalse (fun hh => h (Except.error.inj hh))
  | .ok _, .error _ => isFalse (fun hh => Except.noConfusion hh)
  | .error _, .ok _ => isFalse (fun hh => Except.noConfusion hh)

/-- `Parser.getSymbolAtPosition` from `src/parser.ts` (the identical method
also appears on `QbitParser`).  Its two JS inputs `line` and `character` are
arbitrary numbers.  After the guard `line >= lines.length`, the array read
`lines[line]` yields `undefined` for a negative `line`, and the subsequent
`.length` access throws a `TypeError`; the thrown exception is modelled by
`Except.error`. -/
def getSymbolAtPosition (source : String) (line character : Int) :
    Except String (Option String) :=
  if ((splitLines source.data).length : Int) ≤ line then .ok none
  else
    match (if line < 0 then none else (splitLines source.data)[line.toNat]?) with
    | none => .error "TypeError: cannot read properties of undefined"
    | some currentLine =>
      if (currentLine.length : Int) ≤ character then .ok none
      else
        match (scanTokens currentLine).find?
            (fun p => decide ((p.1 : Int) ≤ character)
              && decide (character < (p.1 : Int) + p.2.length)) with
        | some p => .ok (some (String.mk p.2))
        | none => .ok none

/-! ### Function-definition extraction (`Parser.getFunctionDefinitions`)

The regex `fn\s+([a-zA-Z_][a-zA-Z0-9_]*)\s*\(([^)]*)\)` is run per line with
the `g` flag.  Each subpattern is matched greedily and no backtracking can
change the outcome here (whitespace, identifier characters and `(` are
pairwise disjoint character classes, and `[^)]*` stops exactly at the first
`)`), so a single deterministic matcher is faithful. -/

/-- The JS `\s` character class: ECMAScript WhiteSpace (tab, LF, VT, FF, CR,
space, NBSP, BOM and the Unicode space separators U+1680, U+2000..U+200A,
U+202F, U+205F, U+3000) plus the line terminators U+2028 and U+2029. -/
def jsWhitespace (c : Char) : Bool :=
  c == ' ' || c == '\t' || c == '\n' || c == '\r' ||
  c == '\x0b' || c == '\x0c' || c == '\xa0' || c == '\u1680' ||
  c == '\u2000' || c == '\u2001' || c == '\u2002' || c == '\u2003' ||
  c == '\u2004' || c == '\u2005' || c == '\u2006' || c == '\u2007' ||
  c == '\u2008' || c == '\u2009' || c == '\u200a' || c == '\u2028' ||
  c == '\u2029' || c == '\u202f' || c == '\u205f' || c == '\u3000' ||
  c == '\ufeff'

/-- No whitespace character is an identifier character: the regex classes
`\s` and `[a-zA-Z0-9_]` are disjoint. -/
theorem not_isIdentChar_of_jsWhitespace {c : Char} (h : jsWhitespace c = true) :
    isIdentChar c = false := by
  simp only [jsWhitespace, Bool.or_eq_true, beq_iff_eq] at h
  repeat rcases h with h | rfl
  all_goals decide

theorem jsWhitespace_eq_false_of_isIdentChar {c : Char} (h : isIdentChar c = true) :
    jsWhitespace c = false := by
  cases hw : jsWhitespace c with
  | false => rfl
  | true => exact absurd h (by simp [not_isIdentChar_of_jsWhitespace hw])

/-- Attempt to match `fn\s+([a-zA-Z_][a-zA-Z0-9_]*)\s*\(([^)]*)\)` at the
head of `l`; on success return the two capture groups and the characters
following the match. -/
def tryFnMatch (l : List Char) : Option (List Char × List Char × List Char) :=
  match l with
  | 'f' :: 'n' :: rest =>
    if (rest.takeWhile jsWhitespace).isEmpty then none
    else
      match rest.dropWhile jsWhitespace with
      | [] => none
      | c :: cs1 =>
        if isIdentStart c then
          match ((cs1.dropWhile isIdentChar).dropWhile jsWhitespace) with
          | '(' :: r4 =>
            match r4.dropWhile (fun x => !(x == ')')) with
            | ')' :: r5 => some (c :: cs1.takeWhile isIdentChar, r4.takeWhile (fun x => !(x == ')')), r5)
            | _ => none
          | _ => none
        else none
  | _ => none

theorem tryFnMatch_length {l n p r : List Char}
    (h : tryFnMatch l = some (n, p, r)) : r.length < l.length := by
  unfold tryFnMatch at h
  split at h
  case h_2 => exact absurd h (by simp)
  case h_1 _ rest =>
    split at h
    · exact absurd h (by simp)
    · split at h
      case h_1 => exact absurd h (by simp)
      case h_2 hdw =>
        rename_i c cs1
        split at h
        · split at h
          case h_1 r4 hdw2 =>
            split at h
            case h_1 r5 hdw3 =>
              simp only [Option.some.injEq, Prod.mk.injEq] at h
              obtain ⟨h1, h2, h3⟩ := h
              subst h3
              have e1 : (')' :: r5).length ≤ r4.length := by
                rw [← hdw3]; exact dropWhile_length_le _ _
              have e2 : ('(' :: r4).length ≤ (cs1.dropWhile isIdentChar).length := by
                rw [← hdw2]; exact dropWhile_length_le _ _
              have e3 : (cs1.dropWhile isIdentChar).length ≤ cs1.length :=
                dropWhile_length_le _ _
              have e4 : (c :: cs1).length ≤ rest.length := by
                rw [← hdw]; exact dropWhile_length_le _ _
              simp only [List.length_cons] at e1 e2 e4 ⊢
              omega
            case h_2 => exact absurd h (by simp)
          case h_2 => exact absurd h (by simp)
        · exact absurd h (by simp)

/-- Fuelled left-to-right scan for all matches of the function regex; after a
match the scan resumes right after the match (JS `lastIndex`), after a
failure it advances one character. -/
def scanFnsF : Nat → List Char → List (List Char × List Char)
  | 0, _ => []
  | _ + 1, [] => []
  | fuel + 1, c :: cs =>
    match tryFnMatch (c :: cs) with
    | some (name, params, rest) => (name, params) :: scanFnsF fuel rest
    | none => scanFnsF fuel cs

theorem scanFnsF_irrel : ∀ (f₁ : Nat) (f₂ : Nat) (l : List Char),
    l.length < f₁ → l.length < f₂ → scanFnsF f₁ l = scanFnsF f₂ l := by
  intro f₁
  induction f₁ with
  | zero => intro f₂ l h _; exact absurd h (Nat.not_lt_zero _)
  | succ f ih =>
    intro f₂ l h1 h2
    match f₂, l with
    | f₂ + 1, [] => rfl
    | f₂ + 1, c :: cs =>
      simp only [scanFnsF]
      split
      case h_1 name params rest hm =>
        have hr : rest.length < (c :: cs).length := tryFnMatch_length hm
        simp only [List.length_cons] at hr h1 h2
        rw [ih f₂ rest (by omega) (by omega)]
      case h_2 =>
        simp only [List.length_cons] at h1 h2
        rw [ih f₂ cs (by omega) (by omega)]

/-- All matches of the function regex on `l`. -/
def scanFns (l : List Char) : List (List Char × List Char) :=
  scanFnsF (l.length + 1) l

theorem scanFns_nil : scanFns [] = [] := rfl

theorem scanFns_cons (c : Char) (cs : List Char) :
    scanFns (c :: cs) =
      match tryFnMatch (c :: cs) with
      | some (name, params, rest) => (name, params) :: scanFns rest
      | none => scanFns cs := by
  show scanFnsF (cs.length + 2) (c :: cs) = _
  simp only [scanFnsF]
  split
  case h_1 name params rest hm =>
    have hr : rest.length < (c :: cs).length := tryFnMatch_length hm
    simp only [List.length_cons] at hr
    rw [scanFnsF_irrel (cs.length + 1) (rest.length + 1) rest (by omega) (by omega)]
    rfl
  case h_2 =>
    rw [scanFnsF_irrel (cs.length + 1) (cs.length + 1) cs (by omega) (by omega)]
    rfl

/-- JS `String.prototype.trim`, on characters. -/
def jsTrim (l : List Char) : List Char :=
  ((l.dropWhile jsWhitespace).reverse.dropWhile jsWhitespace).reverse

/-- JS `params.split(',')`: splitting on every comma, keeping empty
segments. -/
def splitCommas (l : List Char) : List (List Char) :=
  match l with
  | [] => [[]]
  | c :: cs =>
    if c = ',' then [] :: splitCommas cs
    else
      match splitCommas cs with
      | [] => [[c]]
      | x :: xs => (c :: x) :: xs

/-- The parameter post-processing in `Parser.getFunctionDefinitions`:
`match[2].split(',').map(p => p.trim()).filter(p => p.length > 0)`. -/
def splitParams (l : List Char) : List String :=
  (((splitCommas l).map jsTrim).filter (fun s => s.length > 0)).map String.mk

/-- One element of the result of `Parser.getFunctionDefinitions`. -/
structure FnDecl where
  name : String
  params : List String
  line : Nat
deriving DecidableEq

/-- `Parser.getFunctionDefinitions` from `src/parser.ts` (identical on
`QbitParser`): per line, every regex match contributes one declaration. -/
def getFunctionDefinitions (source : String) : List FnDecl :=
  ((splitLines source.data).enum).flatMap
    (fun q => (scanFns q.2).map
      (fun m => { name := String.mk m.1, params := splitParams m.2, line := q.1 }))

/-! ### The diagnostics aggregator (`src/diagnostics.ts`) -/

/-- A raw diagnostic record as consumed by `DiagnosticsProvider.update`
(fields `line`, `column`, `length`, `message`, `level`). -/
structure RawDiag where
  message : String
  line : Int
  column : Int
  length : Int
  level : Int
deriving DecidableEq

/-- A `vscode.Position`. -/
structure EditorPos where
  line : Int
  character : Int
deriving DecidableEq

/-- A `vscode.Range`. -/
structure EditorRange where
  start : EditorPos
  stop : EditorPos
deriving DecidableEq

/-- A `vscode.Diagnostic` as built by `DiagnosticsProvider.update`. -/
structure EditorDiag where
  range : EditorRange
  message : String
  severity : Int
  source : String
deriving DecidableEq

/-- The per-diagnostic mapping in `DiagnosticsProvider.update`:
`new vscode.Range(new vscode.Position(Math.max(0, x.line - 1), Math.max(0,
x.column - 1)), new vscode.Position(Math.max(0, x.line - 1), Math.max(0,
x.column - 1 + x.length)))`, message and level copied, source `'qbit'`. -/
def mapDiag (x : RawDiag) : EditorDiag :=
  { range :=
      { start := { line := max 0 (x.line - 1), character := max 0 (x.column - 1) }
        stop := { line := max 0 (x.line - 1), character := max 0 (x.column - 1 + x.length) } }
    message := x.message
    severity := x.level
    source := "qbit" }

/-- A `vscode.TextDocument`, reduced to the three properties `update`
reads. -/
structure Document where
  uri : String
  languageId : String
  text : String

/-- The value produced by `await Parser.parse(...)` as seen by
`DiagnosticsProvider.update`: a JS object whose `diagnostics` property may be
absent (`none`), in which case `result.diagnostics.map` throws a
`TypeError`. -/
structure JsAnalysisResult where
  success : Bool
  diagnostics : Option (List RawDiag)

/-- The `vscode.DiagnosticCollection`: per-URI stored diagnostic sets, with
untracked URIs mapped to `none`. -/
def DiagStore : Type := String → Option (List EditorDiag)

/-- `collection.set(uri, diags)`. -/
def DiagStore.set (st : DiagStore) (k : String) (v : List EditorDiag) : DiagStore :=
  fun q => if q = k then some v else st q

/-- `collection.delete(uri)`. -/
def DiagStore.delete (st : DiagStore) (k : String) : DiagStore :=
  fun q => if q = k then none else st q

/-- `DiagnosticsProvider.update` from `src/diagnostics.ts`.  The argument
`analyze` gives the outcome of `await Parser.parse(document.getText())`:
either a returned JS object or a thrown exception.  The `try` block maps
`result.diagnostics`; on any throw (a rejected analysis, or the `TypeError`
from a missing `diagnostics` property) the `catch` block stores `[]`. -/
def update (analyze : String → Except String JsAnalysisResult)
    (doc : Document) (st : DiagStore) : DiagStore :=
  if doc.languageId ≠ "qbit" then st
  else
    match analyze doc.text with
    | .ok r =>
      match r.diagnostics with
      | some ds => st.set doc.uri (ds.map mapDiag)
      | none => st.set doc.uri []
    | .error _ => st.set doc.uri []

/-- `DiagnosticsProvider.clear` from `src/diagnostics.ts`. -/
def clear (doc : Document) (st : DiagStore) : DiagStore :=
  st.delete doc.uri

end Qbit

example : Qbit.simpleValidation "let x = \"abc" =
    [⟨"Unterminated string literal", 1, 9, 4⟩] := by decide

example : Qbit.simpleValidation "a\x7b\x7d\n\x7dx" = [⟨"Unmatched brace", 2, 1, 1⟩] := by decide

example : Qbit.simpleValidation "ok line\n\x7b \"u\nz\x7d\"" =
    [⟨"Unterminated string literal", 2, 3, 2⟩, ⟨"Unmatched brace", 2, 1, 1⟩,
     ⟨"Unterminated string literal", 3, 3, 1⟩, ⟨"Unmatched brace", 3, 2, 1⟩] := by decide

example : Qbit.getSymbolAtPosition "let foo = 1\nbar(x)" 1 2 = .ok (some "bar") := by decide
example : Qbit.getSymbolAtPosition "ab" 0 5 = .ok none := by decide
example : Qbit.getSymbolAtPosition "ab" (-1) 0 =
    .error "TypeError: cannot read properties of undefined" := by decide
example : Qbit.getSymbolAtPosition "a 9b_c d" 0 4 = .ok (some "b_c") := by decide
example : Qbit.getSymbolAtPosition "a 9b_c d" 0 2 = .ok none := by decide
example : Qbit.getFunctionDefinitions "fn add(a, b) \x7b\x7d\n" =
    [{ name := "add", params := ["a", "b"], line := 0 }] := by decide
example : Qbit.getFunctionDefinitions "x fn  f1(, a,) fn g()\ndfn h(q)" =
    [{ name := "f1", params := ["a"], line := 0 },
     { name := "g", params := [], line := 0 },
     { name := "h", params := ["q"], line := 1 }] := by decide

namespace Qbit

/-! ## Claim theorems: diagnostics aggregator and parser bridge -/

/-- C1: when the bridge's analysis succeeds (the `try` block receives a
result with a `diagnostics` array), `update` replaces the document's stored
set wholesale with exactly the result's diagnostics mapped through the range
formula `[max(0,line-1), max(0,column-1)]` to
`[max(0,line-1), max(0,column-1+length)]`; in particular a raw diagnostic
`{line: 3, column: 5, length: 2}` is stored with range `[2,4]`-`[2,6]`. -/
theorem update_success_replaces_wholesale
    (analyze : String → Except String JsAnalysisResult) (doc : Document)
    (st : DiagStore) (r : JsAnalysisResult) (ds : List RawDiag)
    (hq : doc.languageId = "qbit") (ha : analyze doc.text = .ok r)
    (hd : r.diagnostics = some ds) :
    update analyze doc st doc.uri = some (ds.map mapDiag) ∧
    (∀ m lvl, (mapDiag { message := m, line := 3, column := 5, length := 2, level := lvl }).range
      = { start := { line := 2, character := 4 }, stop := { line := 2, character := 6 } }) := by
  constructor
  · unfold update DiagStore.set
    simp [hq, ha, hd]
  · intro m lvl; rfl

theorem update_success_replaces_wholesale_witness :
    update (fun _ => Except.ok ⟨true, some [⟨"e", 3, 5, 2, 0⟩]⟩)
      ⟨"u", "qbit", "t"⟩ (fun _ => some [⟨⟨⟨9, 9⟩, ⟨9, 9⟩⟩, "old", 0, "qbit"⟩]) "u" =
      some [mapDiag ⟨"e", 3, 5, 2, 0⟩] :=
  (update_success_replaces_wholesale
    (fun _ => Except.ok ⟨true, some [⟨"e", 3, 5, 2, 0⟩]⟩)
    ⟨"u", "qbit", "t"⟩ (fun _ => some [⟨⟨⟨9, 9⟩, ⟨9, 9⟩⟩, "old", 0, "qbit"⟩])
    ⟨true, some [⟨"e", 3, 5, 2, 0⟩]⟩ [⟨"e", 3, 5, 2, 0⟩] rfl rfl rfl).1

/-- C2: `Parser.parse` never propagates an exception: whenever the
authoritative parser is unavailable (initialization failed) or its
invocation throws, it returns the fallback analyzer's diagnostics as a
result whose `success` flag equals `(diagnostics.length == 0)`.  (In the
model the absence of exception propagation is expressed by `Parser.parse`
being a total function into `ParseResult` for every behaviour of the
external parser.) -/
theorem parse_fallback_on_failure (source e : String) :
    Parser.parse WasmParse.unavailable source =
      { success := (simpleValidation source).length == 0
        ast := if (simpleValidation source).length == 0 then some "Fallback AST" else none
        errors := simpleValidation source } ∧
    Parser.parse (WasmParse.throws e) source = Parser.parse WasmParse.unavailable source ∧
    (Parser.parse WasmParse.unavailable source).success
      = ((Parser.parse WasmParse.unavailable source).errors.length == 0) :=
  ⟨rfl, rfl, rfl⟩

/-- C6: if the analysis rejects (throws), or the returned object lacks the
`diagnostics` array (so `result.diagnostics.map` throws a `TypeError`),
`update` replaces the document's stored set with the empty set. -/
theorem update_error_clears
    (analyze : String → Except String JsAnalysisResult) (doc : Document)
    (st : DiagStore) (hq : doc.languageId = "qbit") :
    (∀ e, analyze doc.text = .error e → update analyze doc st doc.uri = some []) ∧
    (∀ r, analyze doc.text = .ok r → r.diagnostics = none →
      update analyze doc st doc.uri = some []) := by
  constructor
  · intro e ha
    unfold update DiagStore.set
    simp [hq, ha]
  · intro r ha hd
    unfold update DiagStore.set
    simp [hq, ha, hd]

theorem update_error_clears_witness :
    update (fun _ => Except.error "wasm rejected")
      ⟨"u", "qbit", "t"⟩ (fun _ => some [⟨⟨⟨9, 9⟩, ⟨9, 9⟩⟩, "old", 0, "qbit"⟩]) "u" =
      some [] :=
  (update_error_clears _ _ _ rfl).1 "wasm rejected" rfl

/-- C7: `clear` removes the document's entry entirely: a subsequent read
yields `none` ("no tracked state"), which differs from every stored set
(including the stored empty set `some []`); entries under other keys are
unaffected. -/
theorem clear_removes_entry (doc : Document) (st : DiagStore) :
    clear doc st doc.uri = none ∧
    (∀ ds : List EditorDiag, clear doc st doc.uri ≠ some ds) ∧
    (∀ k, k ≠ doc.uri → clear doc st k = st k) := by
  refine ⟨?_, ?_, ?_⟩
  · unfold clear DiagStore.delete
    simp
  · intro ds
    unfold clear DiagStore.delete
    simp
  · intro k hk
    unfold clear DiagStore.delete
    simp [hk]

/-- C9: the store is written once per `update` call, at the completion of
its analysis; modelling wall-clock completion order by the order in which
the two writes are applied, the stored set after two overlapping calls for
the same document is exactly what the later-completing call computed — the
earlier completion (regardless of which call started first) is overwritten
unconditionally, with no cancellation or sequence-number check. -/
theorem update_last_completed_wins
    (earlier later : String → Except String JsAnalysisResult)
    (doc : Document) (st : DiagStore) :
    update later doc (update earlier doc st) doc.uri = update later doc st doc.uri := by
  unfold update
  by_cases hq : doc.languageId = "qbit"
  · have hn : ¬ (doc.languageId ≠ "qbit") := by simp [hq]
    simp only [if_neg hn]
    cases hl : later doc.text with
    | error e => simp [DiagStore.set]
    | ok r =>
      cases hr : r.diagnostics with
      | none => simp [hr, DiagStore.set]
      | some ds => simp [hr, DiagStore.set]
  · simp only [if_pos hq]

/-- C10: for a document whose language id is not `qbit`, `update` returns
without invoking any analysis (its result does not depend on the analysis
function) and leaves the store unchanged. -/
theorem update_non_qbit_frame
    (f g : String → Except String JsAnalysisResult) (doc : Document)
    (st : DiagStore) (h : doc.languageId ≠ "qbit") :
    update f doc st = st ∧ update f doc st = update g doc st := by
  unfold update
  rw [if_pos h, if_pos h]
  exact ⟨rfl, rfl⟩

theorem update_non_qbit_frame_witness :
    update (fun _ => Except.error "boom") ⟨"u", "plaintext", "t"⟩ (fun _ => none) =
        (fun _ => none) ∧
      update (fun _ => Except.error "boom") ⟨"u", "plaintext", "t"⟩ (fun _ => none) =
        update (fun _ => Except.ok ⟨true, some []⟩) ⟨"u", "plaintext", "t"⟩ (fun _ => none) :=
  update_non_qbit_frame _ _ _ _ (by decide)

end Qbit

namespace Qbit

/-! ## Helper lemmas for the per-line structure of `simpleValidation` -/

theorem lastIndexOf_eq_neg_one {l : List Char} {c : Char} (h : c ∉ l) :
    lastIndexOf l c = -1 := by
  induction l with
  | nil => rfl
  | cons x xs ih =>
    have hx : ¬ (x = c) := fun e => h (e ▸ List.mem_cons_self x xs)
    have hxs : c ∉ xs := fun e => h (List.mem_cons_of_mem _ e)
    unfold lastIndexOf
    rw [ih hxs]
    simp [hx]

theorem lastIndexOf_spec {l : List Char} {c : Char} (h : c ∈ l) :
    ∃ j : Nat, lastIndexOf l c = (j : Int) ∧ l.get? j = some c ∧
      ∀ k, j < k → l.get? k ≠ some c := by
  induction l with
  | nil => exact absurd h (List.not_mem_nil c)
  | cons x xs ih =>
    by_cases hxs : c ∈ xs
    · obtain ⟨j, hj, hget, hmax⟩ := ih hxs
      refine ⟨j + 1, ?_, by simpa using hget, ?_⟩
      · unfold lastIndexOf
        rw [hj, if_neg (by omega)]
        push_cast
        ring
      · intro k hk
        cases k with
        | zero => omega
        | succ q => simpa using hmax q (Nat.lt_of_succ_lt_succ hk)
    · have hx : x = c := by
        rcases List.mem_cons.mp h with h1 | h1
        · exact h1.symm
        · exact absurd h1 hxs
      refine ⟨0, ?_, by simp [hx], ?_⟩
      · unfold lastIndexOf
        rw [lastIndexOf_eq_neg_one hxs]
        simp [hx]
      · intro k hk
        cases k with
        | zero => omega
        | succ q =>
          intro hc
          exact hxs (List.get?_mem (by simpa using hc))

theorem indexOfC_eq_neg_one {l : List Char} {c : Char} (h : c ∉ l) :
    indexOfC l c = -1 := by
  induction l with
  | nil => rfl
  | cons x xs ih =>
    have hx : ¬ (x = c) := fun e => h (e ▸ List.mem_cons_self x xs)
    have hxs : c ∉ xs := fun e => h (List.mem_cons_of_mem _ e)
    unfold indexOfC
    rw [ih hxs]
    simp [hx]

theorem indexOfC_spec {l : List Char} {c : Char} (h : c ∈ l) :
    ∃ j : Nat, indexOfC l c = (j : Int) ∧ l.get? j = some c ∧
      ∀ k, k < j → l.get? k ≠ some c := by
  induction l with
  | nil => exact absurd h (List.not_mem_nil c)
  | cons x xs ih =>
    by_cases hx : x = c
    · refine ⟨0, ?_, by simp [hx], fun k hk => absurd hk (Nat.not_lt_zero k)⟩
      unfold indexOfC
      simp [hx]
    · have hxs : c ∈ xs := by
        rcases List.mem_cons.mp h with h1 | h1
        · exact absurd h1.symm hx
        · exact h1
      obtain ⟨j, hj, hget, hmin⟩ := ih hxs
      refine ⟨j + 1, ?_, by simpa using hget, ?_⟩
      · unfold indexOfC
        rw [if_neg hx, hj, if_neg (by omega)]
        push_cast
        ring
      · intro k hk
        cases k with
        | zero =>
          simp only [List.get?]
          intro hc
          exact hx (by injection hc)
        | succ q => simpa using hmin q (Nat.lt_of_succ_lt_succ hk)

theorem mem_of_countChar_pos {l : List Char} {c : Char} (h : countChar c l ≠ 0) :
    c ∈ l := by
  by_contra hc
  exact h (List.count_eq_zero.mpr hc)

theorem flatMap_enumFrom_nil_of {α β : Type} (g : Nat × α → List β) :
    ∀ (xs : List α) (n : Nat),
      (∀ (k : Nat) (hk : k < xs.length), g (n + k, xs.get ⟨k, hk⟩) = []) →
      (xs.enumFrom n).flatMap g = [] := by
  intro xs
  induction xs with
  | nil => intro n _; rfl
  | cons x xs ih =>
    intro n hz
    rw [List.enumFrom_cons, List.flatMap_cons]
    have h0 : g (n, x) = [] := by simpa using hz 0 (Nat.succ_pos _)
    rw [h0, List.nil_append]
    refine ih (n + 1) ?_
    intro k hk
    have h1 := hz (k + 1) (Nat.succ_lt_succ hk)
    have e : n + (k + 1) = n + 1 + k := by omega
    rw [e] at h1
    simpa [List.get_cons_succ] using h1

theorem flatMap_enumFrom_single {α β : Type} (g : Nat × α → List β) :
    ∀ (xs : List α) (n i : Nat) (h : i < xs.length),
      (∀ (k : Nat) (hk : k < xs.length), k ≠ i → g (n + k, xs.get ⟨k, hk⟩) = []) →
      (xs.enumFrom n).flatMap g = g (n + i, xs.get ⟨i, h⟩) := by
  intro xs
  induction xs with
  | nil => intro n i h; exact absurd h (Nat.not_lt_zero i)
  | cons x xs ih =>
    intro n i h hz
    rw [List.enumFrom_cons, List.flatMap_cons]
    cases i with
    | zero =>
      have htail : (xs.enumFrom (n + 1)).flatMap g = [] := by
        refine flatMap_enumFrom_nil_of g xs (n + 1) ?_
        intro k hk
        have h1 := hz (k + 1) (Nat.succ_lt_succ hk) (Nat.succ_ne_zero k)
        have e : n + (k + 1) = n + 1 + k := by omega
        rw [e] at h1
        simpa [List.get_cons_succ] using h1
      rw [htail, List.append_nil]
      simp
    | succ q =>
      have h0 : g (n, x) = [] := by
        have h1 := hz 0 (Nat.succ_pos _) (fun e => Nat.succ_ne_zero q e.symm)
        simpa using h1
      rw [h0, List.nil_append]
      have h' : q < xs.length := Nat.lt_of_succ_lt_succ h
      have hz2 : ∀ (k : Nat) (hk : k < xs.length), k ≠ q →
          g (n + 1 + k, xs.get ⟨k, hk⟩) = [] := by
        intro k hk hne
        have h1 := hz (k + 1) (Nat.succ_lt_succ hk) (by omega)
        have e : n + (k + 1) = n + 1 + k := by omega
        rw [e] at h1
        simpa [List.get_cons_succ] using h1
      rw [ih (n + 1) q h' hz2]
      have e : n + 1 + q = n + (q + 1) := by omega
      rw [e]
      simp [List.get_cons_succ]

theorem flatMap_enum_single {α β : Type} (g : Nat × α → List β) (xs : List α) (i : Nat)
    (h : i < xs.length)
    (hz : ∀ (k : Nat) (hk : k < xs.length), k ≠ i → g (k, xs.get ⟨k, hk⟩) = []) :
    xs.enum.flatMap g = g (i, xs.get ⟨i, h⟩) := by
  rw [List.enum_eq_enumFrom]
  have := flatMap_enumFrom_single g xs 0 i h (fun k hk hne => by simpa using hz k hk hne)
  simpa using this

theorem flatMap_enum_nil {α β : Type} (g : Nat × α → List β) (xs : List α)
    (hz : ∀ (k : Nat) (hk : k < xs.length), g (k, xs.get ⟨k, hk⟩) = []) :
    xs.enum.flatMap g = [] := by
  rw [List.enum_eq_enumFrom]
  exact flatMap_enumFrom_nil_of g xs 0 (fun k hk => by simpa using hz k hk)

theorem lineErrors_line {k : Nat} {l : List Char} {e : ParseError}
    (he : e ∈ lineErrors k l) : e.line = (k : Int) + 1 := by
  unfold lineErrors at he
  rcases List.mem_append.mp he with h | h
  · by_cases hc : countChar '"' l % 2 ≠ 0
    · rw [if_pos hc] at h
      simp only [List.mem_singleton] at h
      subst h
      rfl
    · rw [if_neg hc] at h
      exact absurd h (List.not_mem_nil e)
  · by_cases hc : countChar '{' l ≠ countChar '}' l
    · rw [if_pos hc] at h
      simp only [List.mem_singleton] at h
      subst h
      rfl
    · rw [if_neg hc] at h
      exact absurd h (List.not_mem_nil e)

/-- For any message filter keyed to line `i + 1`, only line `i`'s own errors
survive filtering `simpleValidation`. -/
theorem filter_simpleValidation_eq_line {source : String} {i : Nat} {l : List Char}
    (hl : (splitLines source.data).get? i = some l) (msg : String) :
    (simpleValidation source).filter
        (fun e => e.message == msg && e.line == (i : Int) + 1) =
      (lineErrors i l).filter
        (fun e => e.message == msg && e.line == (i : Int) + 1) := by
  obtain ⟨h, hget⟩ := List.get?_eq_some.mp hl
  unfold simpleValidation
  rw [List.filter_flatMap]
  have := flatMap_enum_single
    (fun q => (lineErrors q.1 q.2).filter
      (fun e => e.message == msg && e.line == (i : Int) + 1))
    (splitLines source.data) i h ?_
  · rw [this, hget]
  · intro k hk hne
    rw [List.filter_eq_nil_iff]
    intro e he
    have hline := lineErrors_line he
    have hb : ((e.line == ((i : Int) + 1)) = false) := by
      rw [hline]
      exact beq_eq_false_iff_ne.mpr (by omega)
    simp [hb]

end Qbit

namespace Qbit

/-- C3: on every line whose double-quote count is odd, `simpleValidation`
emits exactly one unterminated-string error for that line, at 1-based column
`j + 1` where `j` is the 0-based index of the line's last `"`, with length
equal to the number of characters from that quote through end-of-line; a
line with an even quote count contributes no unterminated-string
diagnostic. -/
theorem simpleValidation_unterminated_string (source : String) (i : Nat) (l : List Char)
    (hl : (splitLines source.data).get? i = some l) :
    (countChar '"' l % 2 = 1 →
      ∃ j : Nat, l.get? j = some '"' ∧ (∀ k, j < k → l.get? k ≠ some '"') ∧
        (simpleValidation source).filter
            (fun e => e.message == "Unterminated string literal" && e.line == (i : Int) + 1) =
          [{ message := "Unterminated string literal", line := (i : Int) + 1,
             column := (j : Int) + 1, length := (l.length : Int) - (j : Int) }]) ∧
    (countChar '"' l % 2 = 0 →
      (simpleValidation source).filter
          (fun e => e.message == "Unterminated string literal" && e.line == (i : Int) + 1) =
        []) := by
  have hmsg : (("Unmatched brace" == "Unterminated string literal") : Bool) = false := by
    decide
  constructor
  · intro hodd
    have hmem : '"' ∈ l := mem_of_countChar_pos (by omega)
    obtain ⟨j, hj, hget, hmax⟩ := lastIndexOf_spec hmem
    refine ⟨j, hget, hmax, ?_⟩
    rw [filter_simpleValidation_eq_line hl]
    unfold lineErrors
    rw [if_pos (show countChar '"' l % 2 ≠ 0 by omega), List.filter_append]
    have h2 : (if countChar '{' l ≠ countChar '}' l then
        ([{ message := "Unmatched brace", line := (i : Int) + 1,
            column := indexOfC l (if countChar '{' l > countChar '}' l then '{' else '}') + 1,
            length := 1 }] : List ParseError) else []).filter
        (fun e => e.message == "Unterminated string literal" && e.line == (i : Int) + 1) =
        [] := by
      split
      · simp [hmsg]
      · rfl
    rw [h2, List.append_nil, List.filter_cons, if_pos (by simp [beq_self_eq_true])]
    rw [List.filter_nil, hj]
  · intro heven
    rw [filter_simpleValidation_eq_line hl]
    unfold lineErrors
    rw [if_neg (show ¬ countChar '"' l % 2 ≠ 0 by omega), List.nil_append]
    split
    · simp [hmsg]
    · rfl

theorem simpleValidation_unterminated_string_witness :
    ∃ j : Nat, "ab\"cd".data.get? j = some '"' ∧
      (∀ k, j < k → "ab\"cd".data.get? k ≠ some '"') ∧
      (simpleValidation "ab\"cd").filter
          (fun e => e.message == "Unterminated string literal" && e.line == ((0 : Nat) : Int) + 1) =
        [{ message := "Unterminated string literal", line := ((0 : Nat) : Int) + 1,
           column := (j : Int) + 1, length := (("ab\"cd".data.length : Nat) : Int) - (j : Int) }] :=
  (simpleValidation_unterminated_string "ab\"cd" 0 "ab\"cd".data (by decide)).1 (by decide)

/-- C4: a line with equal `{` and `}` counts contributes no brace
diagnostic; a line with differing counts contributes exactly one
unmatched-brace error, at the 1-based column of the first occurrence of
whichever brace is in excess, with length 1; consequently a source whose
every line is balanced produces no brace diagnostics at all. -/
theorem simpleValidation_unmatched_brace (source : String) (i : Nat) (l : List Char)
    (hl : (splitLines source.data).get? i = some l) :
    (countChar '{' l = countChar '}' l →
      (simpleValidation source).filter
          (fun e => e.message == "Unmatched brace" && e.line == (i : Int) + 1) = []) ∧
    (countChar '{' l ≠ countChar '}' l →
      ∃ j : Nat,
        l.get? j = some (if countChar '{' l > countChar '}' l then '{' else '}') ∧
        (∀ k, k < j →
          l.get? k ≠ some (if countChar '{' l > countChar '}' l then '{' else '}')) ∧
        (simpleValidation source).filter
            (fun e => e.message == "Unmatched brace" && e.line == (i : Int) + 1) =
          [{ message := "Unmatched brace", line := (i : Int) + 1,
             column := (j : Int) + 1, length := 1 }]) ∧
    ((∀ (k : Nat) (hk : k < (splitLines source.data).length),
        countChar '{' ((splitLines source.data).get ⟨k, hk⟩) =
          countChar '}' ((splitLines source.data).get ⟨k, hk⟩)) →
      (simpleValidation source).filter (fun e => e.message == "Unmatched brace") = []) := by
  have hmsg : (("Unterminated string literal" == "Unmatched brace") : Bool) = false := by
    decide
  refine ⟨?_, ?_, ?_⟩
  · intro hbal
    rw [filter_simpleValidation_eq_line hl]
    unfold lineErrors
    rw [List.filter_append, if_neg (show ¬ countChar '{' l ≠ countChar '}' l by omega)]
    rw [List.filter_nil, List.append_nil]
    split
    · simp [hmsg]
    · rfl
  · intro hne
    have hmem : (if countChar '{' l > countChar '}' l then '{' else '}') ∈ l := by
      split
      · exact mem_of_countChar_pos (by omega)
      · exact mem_of_countChar_pos (by omega)
    obtain ⟨j, hj, hget, hmin⟩ := indexOfC_spec hmem
    refine ⟨j, hget, hmin, ?_⟩
    rw [filter_simpleValidation_eq_line hl]
    unfold lineErrors
    rw [List.filter_append, if_pos hne]
    have h1 : (if countChar '"' l % 2 ≠ 0 then
        ([{ message := "Unterminated string literal", line := (i : Int) + 1,
            column := lastIndexOf l '"' + 1,
            length := (l.length : Int) - lastIndexOf l '"' }] : List ParseError)
        else []).filter
        (fun e => e.message == "Unmatched brace" && e.line == (i : Int) + 1) = [] := by
      split
      · simp [hmsg]
      · rfl
    rw [h1, List.nil_append, List.filter_cons, if_pos (by simp [beq_self_eq_true])]
    rw [List.filter_nil, hj]
  · intro hbal
    unfold simpleValidation
    rw [List.filter_flatMap]
    refine flatMap_enum_nil _ _ ?_
    intro k hk
    unfold lineErrors
    rw [List.filter_append, if_neg (show ¬ countChar '{' ((splitLines source.data).get ⟨k, hk⟩) ≠
      countChar '}' ((splitLines source.data).get ⟨k, hk⟩) by simpa using hbal k hk)]
    rw [List.filter_nil, List.append_nil]
    split
    · simp [hmsg]
    · rfl

theorem simpleValidation_unmatched_brace_witness :
    ∃ j : Nat,
      "\x7ba".data.get? j =
        some (if countChar '{' "\x7ba".data > countChar '}' "\x7ba".data then '{' else '}') ∧
      (∀ k, k < j → "\x7ba".data.get? k ≠
        some (if countChar '{' "\x7ba".data > countChar '}' "\x7ba".data then '{' else '}')) ∧
      (simpleValidation "\x7ba").filter
          (fun e => e.message == "Unmatched brace" && e.line == ((0 : Nat) : Int) + 1) =
        [{ message := "Unmatched brace", line := ((0 : Nat) : Int) + 1,
           column := (j : Int) + 1, length := 1 }] :=
  (simpleValidation_unmatched_brace "\x7ba" 0 "\x7ba".data (by decide)).2.1 (by decide)

end Qbit

namespace Qbit

/-! ## Soundness of the function-definition scanner -/

/-- A successful `tryFnMatch` really did find the regex shape
`fn` `\s+` name `\s*` `(` params `)` at the head of the input. -/
theorem tryFnMatch_sound {l nm ps rest : List Char}
    (h : tryFnMatch l = some (nm, ps, rest)) :
    ∃ ws1 ws2,
      l = 'f' :: 'n' :: (ws1 ++ (nm ++ (ws2 ++ '(' :: (ps ++ ')' :: rest)))) ∧
      ws1 ≠ [] ∧ (∀ c ∈ ws1, jsWhitespace c = true) ∧
      (∀ c ∈ ws2, jsWhitespace c = true) ∧
      nm ≠ [] ∧ (∀ c, nm.head? = some c → isIdentStart c = true) ∧
      (∀ c ∈ nm, isIdentChar c = true) ∧
      (∀ c ∈ ps, (c == ')') = false) := by
  unfold tryFnMatch at h
  split at h
  case h_2 => exact absurd h (by simp)
  case h_1 _ rest0 =>
    split at h
    case isTrue => exact absurd h (by simp)
    case isFalse hne =>
      split at h
      case h_1 => exact absurd h (by simp)
      case h_2 hdw =>
        rename_i c cs1
        split at h
        case isFalse => exact absurd h (by simp)
        case isTrue hstart =>
          split at h
          case h_2 => exact absurd h (by simp)
          case h_1 r4 hdw2 =>
            split at h
            case h_2 => exact absurd h (by simp)
            case h_1 r5 hdw3 =>
              simp only [Option.some.injEq, Prod.mk.injEq] at h
              obtain ⟨h1, h2, h3⟩ := h
              subst h1
              subst h2
              subst h3
              refine ⟨rest0.takeWhile jsWhitespace,
                (cs1.dropWhile isIdentChar).takeWhile jsWhitespace, ?_, ?_, ?_, ?_, ?_, ?_, ?_, ?_⟩
              · have e1 : rest0.takeWhile jsWhitespace ++ (c :: cs1) = rest0 := by
                  rw [← hdw]
                  exact List.takeWhile_append_dropWhile _ _
                have e2 : cs1.takeWhile isIdentChar ++ cs1.dropWhile isIdentChar = cs1 :=
                  List.takeWhile_append_dropWhile _ _
                have e3 : (cs1.dropWhile isIdentChar).takeWhile jsWhitespace ++ ('(' :: r4) =
                    cs1.dropWhile isIdentChar := by
                  rw [← hdw2]
                  exact List.takeWhile_append_dropWhile _ _
                have e4 : r4.takeWhile (fun x => !(x == ')')) ++ (')' :: r5) = r4 := by
                  rw [← hdw3]
                  exact List.takeWhile_append_dropWhile _ _
                rw [e4, List.cons_append, e3, e2, e1]
              · intro e
                exact hne (List.isEmpty_iff.mpr e)
              · intro x hx
                exact List.mem_takeWhile_imp hx
              · intro x hx
                exact List.mem_takeWhile_imp hx
              · exact List.cons_ne_nil _ _
              · intro x hx
                injection hx with hx
                exact hx ▸ hstart
              · intro x hx
                rcases List.mem_cons.mp hx with hx | hx
                · rw [hx]
                  exact isIdentChar_of_isIdentStart hstart
                · exact List.mem_takeWhile_imp hx
              · intro x hx
                have := List.mem_takeWhile_imp hx
                simpa using this

/-- Every pair produced by `scanFns` comes from an actual occurrence of the
function-definition pattern in the scanned line. -/
theorem scanFns_sound : ∀ (N : Nat) (l : List Char), l.length ≤ N →
    ∀ nm ps, (nm, ps) ∈ scanFns l →
    ∃ pre ws1 ws2 post,
      l = pre ++ 'f' :: 'n' :: (ws1 ++ (nm ++ (ws2 ++ '(' :: (ps ++ ')' :: post)))) ∧
      ws1 ≠ [] ∧ (∀ c ∈ ws1, jsWhitespace c = true) ∧
      (∀ c ∈ ws2, jsWhitespace c = true) ∧
      nm ≠ [] ∧ (∀ c, nm.head? = some c → isIdentStart c = true) ∧
      (∀ c ∈ nm, isIdentChar c = true) ∧
      (∀ c ∈ ps, (c == ')') = false) := by
  intro N
  induction N with
  | zero =>
    intro l hlen nm ps hmem
    have : l = [] := List.length_eq_zero.mp (Nat.le_zero.mp hlen)
    subst this
    rw [scanFns_nil] at hmem
    exact absurd hmem (List.not_mem_nil _)
  | succ N ih =>
    intro l hlen nm ps hmem
    cases l with
    | nil =>
      rw [scanFns_nil] at hmem
      exact absurd hmem (List.not_mem_nil _)
    | cons c cs =>
      rw [scanFns_cons] at hmem
      rcases htry : tryFnMatch (c :: cs) with _ | ⟨nm0, ps0, rest⟩
      · rw [htry] at hmem
        obtain ⟨pre, ws1, ws2, post, heq, hrest⟩ :=
          ih cs (by simpa using Nat.le_of_succ_le_succ hlen) nm ps hmem
        exact ⟨c :: pre, ws1, ws2, post, by rw [List.cons_append, ← heq], hrest⟩
      · rw [htry] at hmem
        rcases List.mem_cons.mp hmem with hhd | htl
        · have h1 : nm = nm0 := congrArg Prod.fst hhd
          have h2 : ps = ps0 := congrArg Prod.snd hhd
          subst h1
          subst h2
          obtain ⟨ws1, ws2, heq, hprops⟩ := tryFnMatch_sound htry
          exact ⟨[], ws1, ws2, rest, by simpa using heq, hprops⟩
        · have hlr : rest.length ≤ N := by
            have := tryFnMatch_length htry
            simp only [List.length_cons] at this hlen
            omega
          obtain ⟨pre, ws1, ws2, post, heq, hprops⟩ := ih rest hlr nm ps htl
          obtain ⟨ws10, ws20, heq0, _⟩ := tryFnMatch_sound htry
          refine ⟨'f' :: 'n' :: (ws10 ++ (nm0 ++ (ws20 ++ '(' :: (ps0 ++ ')' :: pre)))),
            ws1, ws2, post, ?_, hprops⟩
          rw [heq0, heq]
          simp [List.append_assoc]

end Qbit


namespace Qbit

/-! ## The declarative characterisation of identifier-regex matches

`isIdentTokenAt l s t` says, independently of any scanning algorithm, that
the identifier regex `[a-zA-Z_][a-zA-Z0-9_]*` has a match with text `t` at
0-based start index `s` of the line `l`: the text sits at that slice, starts
with an identifier-start character, consists of identifier characters, is
maximal to the right, and is not swallowed by an earlier match (no
identifier-start character to its left can reach position `s` through an
unbroken run of identifier characters). -/
def isIdentTokenAt (l : List Char) (s : Nat) (t : List Char) : Prop :=
  t ≠ [] ∧
  (∀ i, i < t.length → l.get? (s + i) = t.get? i) ∧
  (∀ c, t.head? = some c → isIdentStart c = true) ∧
  (∀ c, c ∈ t → isIdentChar c = true) ∧
  (∀ c, l.get? (s + t.length) = some c → isIdentChar c = false) ∧
  (∀ j, j < s → (∀ c, l.get? j = some c → isIdentStart c = true) →
    ∃ k, j ≤ k ∧ k < s ∧ ∃ c, l.get? k = some c ∧ isIdentChar c = false)

theorem head?_dropWhile {α} (p : α → Bool) (l : List α) :
    ∀ x, (l.dropWhile p).head? = some x → p x = false := by
  induction l with
  | nil => intro x h; exact absurd h (by simp)
  | cons a l ih =>
    intro x h
    rw [List.dropWhile_cons] at h
    split at h
    · exact ih x h
    · rename_i hpa
      injection h with h
      subst h
      simpa using hpa

theorem isIdentTokenAt_zero {c : Char} (cs : List Char) (hc : isIdentStart c = true) :
    isIdentTokenAt (c :: cs) 0 (c :: cs.takeWhile isIdentChar) := by
  refine ⟨List.cons_ne_nil _ _, ?_, ?_, ?_, ?_, ?_⟩
  · intro i hi
    cases i with
    | zero => rfl
    | succ n =>
      simp only [Nat.zero_add, List.get?_cons_succ]
      have hn : n < (cs.takeWhile isIdentChar).length := by
        simpa using Nat.lt_of_succ_lt_succ hi
      conv_lhs => rw [← List.takeWhile_append_dropWhile (p := isIdentChar) (l := cs)]
      rw [List.get?_append hn]
  · intro x hx
    injection hx with hx
    exact hx ▸ hc
  · intro x hx
    rcases List.mem_cons.mp hx with hx | hx
    · rw [hx]
      exact isIdentChar_of_isIdentStart hc
    · exact List.mem_takeWhile_imp hx
  · intro x hx
    rw [Nat.zero_add] at hx
    simp only [List.length_cons] at hx
    rw [List.get?_cons_succ] at hx
    have e1 : ((cs.takeWhile isIdentChar) ++ (cs.dropWhile isIdentChar)).get?
        (cs.takeWhile isIdentChar).length = (cs.dropWhile isIdentChar).head? := by
      rw [List.get?_append_right (Nat.le_refl _), Nat.sub_self, List.get?_zero]
    rw [List.takeWhile_append_dropWhile] at e1
    rw [e1] at hx
    exact head?_dropWhile isIdentChar cs x hx
  · intro j hj
    exact absurd hj (Nat.not_lt_zero j)

theorem isIdentTokenAt_cons_shift {c : Char} {l t : List Char} {s : Nat}
    (hc : isIdentStart c = false) :
    isIdentTokenAt (c :: l) (s + 1) t ↔ isIdentTokenAt l s t := by
  unfold isIdentTokenAt
  constructor
  · rintro ⟨hne, hslice, hhead, hall, hstop, hleft⟩
    refine ⟨hne, ?_, hhead, hall, ?_, ?_⟩
    · intro i hi
      have h1 := hslice i hi
      rwa [show s + 1 + i = (s + i) + 1 from by omega, List.get?_cons_succ] at h1
    · intro x hx
      apply hstop
      rwa [show s + 1 + t.length = (s + t.length) + 1 from by omega, List.get?_cons_succ]
    · intro j hj htr
      have htr' : ∀ x, (c :: l).get? (j + 1) = some x → isIdentStart x = true := by
        intro x hx
        rw [List.get?_cons_succ] at hx
        exact htr x hx
      obtain ⟨k, hk1, hk2, x, hx, hxf⟩ := hleft (j + 1) (by omega) htr'
      cases k with
      | zero => omega
      | succ q =>
        rw [List.get?_cons_succ] at hx
        exact ⟨q, by omega, by omega, x, hx, hxf⟩
  · rintro ⟨hne, hslice, hhead, hall, hstop, hleft⟩
    refine ⟨hne, ?_, hhead, hall, ?_, ?_⟩
    · intro i hi
      rw [show s + 1 + i = (s + i) + 1 from by omega, List.get?_cons_succ]
      exact hslice i hi
    · intro x hx
      rw [show s + 1 + t.length = (s + t.length) + 1 from by omega,
        List.get?_cons_succ] at hx
      exact hstop x hx
    · intro j hj htr
      cases j with
      | zero =>
        have h1 := htr c (by rw [List.get?_cons_zero])
        rw [h1] at hc
        exact absurd hc (by simp)
      | succ q =>
        have htr' : ∀ x, l.get? q = some x → isIdentStart x = true := by
          intro x hx
          exact htr x (by rw [List.get?_cons_succ]; exact hx)
        obtain ⟨k, hk1, hk2, x, hx, hxf⟩ := hleft q (by omega) htr'
        exact ⟨k + 1, by omega, by omega, x, by rw [List.get?_cons_succ]; exact hx, hxf⟩

theorem isIdentTokenAt_append_shift (pre : List Char) {d t : List Char} {s : Nat}
    (hd : ∀ x, d.head? = some x → isIdentChar x = false) :
    isIdentTokenAt (pre ++ d) (pre.length + s) t ↔ isIdentTokenAt d s t := by
  have hget : ∀ n : Nat, (pre ++ d).get? (pre.length + n) = d.get? n := by
    intro n
    rw [List.get?_append_right (by omega)]
    congr 1
    omega
  constructor
  · rintro ⟨hne, hslice, hhead, hall, hstop, hleft⟩
    refine ⟨hne, ?_, hhead, hall, ?_, ?_⟩
    · intro i hi
      have h1 := hslice i hi
      rwa [show pre.length + s + i = pre.length + (s + i) from by omega, hget] at h1
    · intro x hx
      apply hstop
      rwa [show pre.length + s + t.length = pre.length + (s + t.length) from by omega, hget]
    · intro j hj htr
      have htr' : ∀ x, (pre ++ d).get? (pre.length + j) = some x → isIdentStart x = true := by
        intro x hx
        rw [hget] at hx
        exact htr x hx
      obtain ⟨k, hk1, hk2, x, hx, hxf⟩ := hleft (pre.length + j) (by omega) htr'
      refine ⟨k - pre.length, by omega, by omega, x, ?_, hxf⟩
      rw [show k = pre.length + (k - pre.length) from by omega, hget] at hx
      exact hx
  · rintro ⟨hne, hslice, hhead, hall, hstop, hleft⟩
    have htpos : 0 < t.length := List.length_pos.mpr hne
    obtain ⟨c0, hc0⟩ : ∃ c0, t.head? = some c0 := by
      cases t with
      | nil => exact absurd rfl hne
      | cons a t => exact ⟨a, rfl⟩
    have hd0 : d.get? s = some c0 := by
      have h1 := hslice 0 htpos
      rw [Nat.add_zero, List.get?_zero] at h1
      rw [h1, hc0]
    have hsne : s ≠ 0 := by
      intro h0
      subst h0
      rw [List.get?_zero] at hd0
      have h1 := hd c0 hd0
      exact absurd (isIdentChar_of_isIdentStart (hhead c0 hc0)) (by simp [h1])
    refine ⟨hne, ?_, hhead, hall, ?_, ?_⟩
    · intro i hi
      rw [show pre.length + s + i = pre.length + (s + i) from by omega, hget]
      exact hslice i hi
    · intro x hx
      rw [show pre.length + s + t.length = pre.length + (s + t.length) from by omega,
        hget] at hx
      exact hstop x hx
    · intro j hj htr
      by_cases hjp : j < pre.length
      · have hdne : d ≠ [] := by
          intro h0
          rw [h0] at hd0
          simp at hd0
        obtain ⟨d0, hd0'⟩ : ∃ d0, d.head? = some d0 := by
          cases d with
          | nil => exact absurd rfl hdne
          | cons a d => exact ⟨a, rfl⟩
        refine ⟨pre.length, by omega, by omega, d0, ?_, hd d0 hd0'⟩
        rw [show pre.length = pre.length + 0 from by omega, hget, List.get?_zero]
        exact hd0'
      · have htr' : ∀ x, d.get? (j - pre.length) = some x → isIdentStart x = true := by
          intro x hx
          apply htr
          rw [show j = pre.length + (j - pre.length) from by omega, hget]
          exact hx
        obtain ⟨k, hk1, hk2, x, hx, hxf⟩ := hleft (j - pre.length) (by omega) htr'
        refine ⟨pre.length + k, by omega, by omega, x, ?_, hxf⟩
        rw [hget]
        exact hx

end Qbit

namespace Qbit

theorem token_eq_takeWhile {l t : List Char}
    (hslice : ∀ i, i < t.length → l.get? i = t.get? i)
    (hall : ∀ c, c ∈ t → isIdentChar c = true)
    (hstop : ∀ c, l.get? t.length = some c → isIdentChar c = false) :
    t = l.takeWhile isIdentChar := by
  induction t generalizing l with
  | nil =>
    cases l with
    | nil => rfl
    | cons b l =>
      have hb : isIdentChar b = false := hstop b (by simp)
      rw [List.takeWhile_cons_of_neg (by simp [hb])]
  | cons a t ih =>
    have h0 : l.get? 0 = some a := by simpa using hslice 0 (by simp)
    cases l with
    | nil => simp at h0
    | cons b l =>
      have hba : b = a := by
        rw [List.get?_cons_zero] at h0
        injection h0
      subst hba
      rw [List.takeWhile_cons_of_pos (hall b (List.mem_cons_self _ _))]
      have hslice' : ∀ i, i < t.length → l.get? i = t.get? i := by
        intro i hi
        have h1 := hslice (i + 1) (by simpa using Nat.succ_lt_succ hi)
        rwa [List.get?_cons_succ, List.get?_cons_succ] at h1
      have hall' : ∀ c, c ∈ t → isIdentChar c = true := by
        intro c hc
        exact hall c (List.mem_cons_of_mem _ hc)
      have hstop' : ∀ c, l.get? t.length = some c → isIdentChar c = false := by
        intro c hc
        apply hstop
        rw [show (b :: t).length = t.length + 1 from rfl, List.get?_cons_succ]
        exact hc
      rw [← ih hslice' hall' hstop']

/-- Soundness of the scan: every scanned pair is a declarative regex match. -/
theorem scanTokens_sound : ∀ (N : Nat) (l : List Char), l.length ≤ N →
    ∀ s t, (s, t) ∈ scanTokens l → isIdentTokenAt l s t := by
  intro N
  induction N with
  | zero =>
    intro l hlen s t hmem
    have h0 : l = [] := List.length_eq_zero.mp (Nat.le_zero.mp hlen)
    subst h0
    rw [scanTokens_nil] at hmem
    exact absurd hmem (List.not_mem_nil _)
  | succ N ih =>
    intro l hlen s t hmem
    cases l with
    | nil =>
      rw [scanTokens_nil] at hmem
      exact absurd hmem (List.not_mem_nil _)
    | cons c cs =>
      rw [scanTokens_cons] at hmem
      by_cases hc : isIdentStart c = true
      · rw [if_pos hc] at hmem
        rcases List.mem_cons.mp hmem with hhd | htl
        · have h1 : s = 0 := congrArg Prod.fst hhd
          have h2 : t = c :: cs.takeWhile isIdentChar := congrArg Prod.snd hhd
          subst h1
          subst h2
          exact isIdentTokenAt_zero cs hc
        · rw [List.mem_map] at htl
          obtain ⟨q, hq, hqe⟩ := htl
          obtain ⟨s0, t0⟩ := q
          have hs : s0 + (c :: cs.takeWhile isIdentChar).length = s := congrArg Prod.fst hqe
          have ht : t0 = t := congrArg Prod.snd hqe
          subst ht
          have htok : isIdentTokenAt (cs.dropWhile isIdentChar) s0 t0 :=
            ih (cs.dropWhile isIdentChar)
              (by
                have hd := dropWhile_length_le isIdentChar cs
                simp only [List.length_cons] at hlen
                omega)
              s0 t0 hq
          have hshift := (isIdentTokenAt_append_shift (c :: cs.takeWhile isIdentChar)
            (head?_dropWhile isIdentChar cs)).mpr htok
          rw [show (c :: cs.takeWhile isIdentChar) ++ cs.dropWhile isIdentChar = c :: cs from by
            rw [List.cons_append, List.takeWhile_append_dropWhile]] at hshift
          rwa [show (c :: cs.takeWhile isIdentChar).length + s0 = s from by omega] at hshift
      · rw [if_neg hc] at hmem
        rw [List.mem_map] at hmem
        obtain ⟨q, hq, hqe⟩ := hmem
        obtain ⟨s0, t0⟩ := q
        have hs : s0 + 1 = s := congrArg Prod.fst hqe
        have ht : t0 = t := congrArg Prod.snd hqe
        subst ht
        have hcs : isIdentTokenAt cs s0 t0 :=
          ih cs (by simp only [List.length_cons] at hlen; omega) s0 t0 hq
        have hshift := (isIdentTokenAt_cons_shift (c := c) (by simpa using hc)).mpr hcs
        rwa [hs] at hshift

/-- Completeness of the scan: every declarative regex match is scanned. -/
theorem scanTokens_complete : ∀ (N : Nat) (l : List Char), l.length ≤ N →
    ∀ s t, isIdentTokenAt l s t → (s, t) ∈ scanTokens l := by
  intro N
  induction N with
  | zero =>
    intro l hlen s t htok
    have h0 : l = [] := List.length_eq_zero.mp (Nat.le_zero.mp hlen)
    subst h0
    obtain ⟨hne, hslice, _⟩ := htok
    have htpos : 0 < t.length := List.length_pos.mpr hne
    have h1 := hslice 0 htpos
    rw [List.get?_eq_none.mpr (by simp), List.get?_zero] at h1
    cases t with
    | nil => exact absurd rfl hne
    | cons a t => simp at h1
  | succ N ih =>
    intro l hlen s t htok
    cases l with
    | nil =>
      obtain ⟨hne, hslice, _⟩ := htok
      have htpos : 0 < t.length := List.length_pos.mpr hne
      have h1 := hslice 0 htpos
      rw [List.get?_eq_none.mpr (by simp), List.get?_zero] at h1
      cases t with
      | nil => exact absurd rfl hne
      | cons a t => simp at h1
    | cons c cs =>
      by_cases hc : isIdentStart c = true
      · obtain ⟨hne, hslice, hhead, hall, hstop, hleft⟩ := htok
        cases s with
        | zero =>
          have ht : t = (c :: cs).takeWhile isIdentChar :=
            token_eq_takeWhile (fun i hi => by simpa using hslice i hi) hall
              (fun x hx => hstop x (by simpa using hx))
          rw [List.takeWhile_cons_of_pos (isIdentChar_of_isIdentStart hc)] at ht
          rw [scanTokens_cons, if_pos hc, ht]
          exact List.mem_cons_self _ _
        | succ s' =>
          have htr : ∀ x, (c :: cs).get? 0 = some x → isIdentStart x = true := by
            intro x hx
            rw [List.get?_cons_zero] at hx
            injection hx with hx
            exact hx ▸ hc
          obtain ⟨k, hk0, hks, x, hxget, hxf⟩ := hleft 0 (Nat.succ_pos s') htr
          have hklb : (cs.takeWhile isIdentChar).length + 1 ≤ k := by
            by_contra hlt
            push_neg at hlt
            cases k with
            | zero =>
              rw [List.get?_cons_zero] at hxget
              injection hxget with hh
              exact absurd (hh ▸ isIdentChar_of_isIdentStart hc) (by simp [hxf])
            | succ i =>
              have hi : i < (cs.takeWhile isIdentChar).length := by omega
              rw [List.get?_cons_succ] at hxget
              have e : cs.get? i = (cs.takeWhile isIdentChar).get? i := by
                conv_lhs => rw [← List.takeWhile_append_dropWhile (p := isIdentChar) (l := cs)]
                rw [List.get?_append hi]
              rw [e] at hxget
              exact absurd (List.mem_takeWhile_imp (List.get?_mem hxget)) (by simp [hxf])
          have hsbig : (cs.takeWhile isIdentChar).length + 2 ≤ s' + 1 := by omega
          have hbig : isIdentTokenAt
              ((c :: cs.takeWhile isIdentChar) ++ cs.dropWhile isIdentChar)
              ((c :: cs.takeWhile isIdentChar).length +
                (s' + 1 - (cs.takeWhile isIdentChar).length - 1)) t := by
            rw [show (c :: cs.takeWhile isIdentChar) ++ cs.dropWhile isIdentChar = c :: cs from by
              rw [List.cons_append, List.takeWhile_append_dropWhile]]
            rw [show (c :: cs.takeWhile isIdentChar).length +
              (s' + 1 - (cs.takeWhile isIdentChar).length - 1) = s' + 1 from by
              simp only [List.length_cons]; omega]
            exact ⟨hne, hslice, hhead, hall, hstop, hleft⟩
          have hsmall := (isIdentTokenAt_append_shift (c :: cs.takeWhile isIdentChar)
            (head?_dropWhile isIdentChar cs)).mp hbig
          have hmem := ih (cs.dropWhile isIdentChar)
            (by
              have hd := dropWhile_length_le isIdentChar cs
              simp only [List.length_cons] at hlen
              omega)
            _ t hsmall
          rw [scanTokens_cons, if_pos hc]
          refine List.mem_cons.mpr (Or.inr ?_)
          rw [List.mem_map]
          refine ⟨(s' + 1 - (cs.takeWhile isIdentChar).length - 1, t), hmem, ?_⟩
          rw [show (s' + 1 - (cs.takeWhile isIdentChar).length - 1) +
            (c :: cs.takeWhile isIdentChar).length = s' + 1 from by
            simp only [List.length_cons]; omega]
      · obtain ⟨hne, hslice, hhead, hall, hstop, hleft⟩ := htok
        cases s with
        | zero =>
          have htpos : 0 < t.length := List.length_pos.mpr hne
          have h0 := hslice 0 htpos
          rw [Nat.add_zero, List.get?_cons_zero, List.get?_zero] at h0
          exact absurd (hhead c h0.symm) (by simpa using hc)
        | succ s' =>
          have hcs : isIdentTokenAt cs s' t :=
            (isIdentTokenAt_cons_shift (by simpa using hc)).mp
              ⟨hne, hslice, hhead, hall, hstop, hleft⟩
          have hmem := ih cs (by simp only [List.length_cons] at hlen; omega) s' t hcs
          rw [scanTokens_cons, if_neg hc]
          rw [List.mem_map]
          exact ⟨(s', t), hmem, rfl⟩

end Qbit

namespace Qbit

/-- At most one declarative regex match covers a given position. -/
theorem isIdentTokenAt_unique {l : List Char} {s s' p : Nat} {t t' : List Char}
    (h : isIdentTokenAt l s t) (h' : isIdentTokenAt l s' t')
    (hs : s ≤ p) (hp : p < s + t.length) (hs' : s' ≤ p) (hp' : p < s' + t'.length) :
    s = s' ∧ t = t' := by
  have key : ∀ {a a' : Nat} {u u' : List Char}, isIdentTokenAt l a u →
      isIdentTokenAt l a' u' → a ≤ p → p < a + u.length → a' ≤ p → a < a' → False := by
    intro a a' u u' hu hu' hap hpu ha'p haa
    obtain ⟨hne, hslice, hhead, hall, hstop, hleft⟩ := hu
    obtain ⟨hne', hslice', hhead', hall', hstop', hleft'⟩ := hu'
    have htpos : 0 < u.length := List.length_pos.mpr hne
    have hheadu : l.get? a = u.head? := by
      have h1 := hslice 0 htpos
      rwa [Nat.add_zero, List.get?_zero] at h1
    have htr : ∀ x, l.get? a = some x → isIdentStart x = true := by
      intro x hx
      apply hhead
      rw [← hheadu]
      exact hx
    obtain ⟨k, hk1, hk2, x, hx, hxf⟩ := hleft' a haa htr
    have hki : k - a < u.length := by omega
    have h2 := hslice (k - a) hki
    rw [show a + (k - a) = k from by omega] at h2
    rw [h2] at hx
    exact absurd (hall x (List.get?_mem hx)) (by simp [hxf])
  have hss : s = s' := by
    rcases Nat.lt_trichotomy s s' with h1 | h1 | h1
    · exact (key h h' hs hp hs' h1).elim
    · exact h1
    · exact (key h' h hs' hp' hs h1).elim
  subst hss
  have key2 : ∀ {u u' : List Char}, isIdentTokenAt l s u → isIdentTokenAt l s u' →
      ¬ (u.length < u'.length) := by
    intro u u' hu hu' hlt
    obtain ⟨hne, hslice, hhead, hall, hstop, hleft⟩ := hu
    obtain ⟨hne', hslice', hhead', hall', hstop', hleft'⟩ := hu'
    have h1 := hslice' u.length hlt
    cases hx : u'.get? u.length with
    | none =>
      have := List.get?_eq_none.mp hx
      omega
    | some x =>
      rw [hx] at h1
      exact absurd (hall' x (List.get?_mem hx)) (by simp [hstop x h1])
  have hlen : t.length = t'.length := by
    rcases Nat.lt_trichotomy t.length t'.length with h1 | h1 | h1
    · exact absurd h1 (key2 h h')
    · exact h1
    · exact absurd h1 (key2 h' h)
  refine ⟨rfl, ?_⟩
  obtain ⟨hne, hslice, _, _, _, _⟩ := h
  obtain ⟨hne', hslice', _, _, _, _⟩ := h'
  apply List.ext_get?
  intro n
  by_cases hn : n < t.length
  · rw [← hslice n hn, hslice' n (by omega)]
  · rw [List.get?_eq_none.mpr (by omega), List.get?_eq_none.mpr (by omega)]

/-- C5 (amended): for `0 ≤ line < lines.length`, `getSymbolAtPosition`
returns the maximal identifier token whose span contains `character` (and
`none` when no such token exists, in particular when `character` is at or
past end-of-line or sits on a non-identifier character); for
`line ≥ lines.length` it returns `none`.  (For a negative `line` the code
instead throws a `TypeError` — see the counterexample theorem — which is the
one divergence from the claim as stated.) -/
theorem getSymbolAtPosition_spec (source : String) (line character : Int) :
    (((splitLines source.data).length : Int) ≤ line →
      getSymbolAtPosition source line character = .ok none) ∧
    (∀ l, 0 ≤ line → (splitLines source.data).get? line.toNat = some l →
      ((l.length : Int) ≤ character →
        getSymbolAtPosition source line character = .ok none) ∧
      (character < (l.length : Int) →
        (∀ (s : Nat) (t : List Char), isIdentTokenAt l s t →
          (s : Int) ≤ character → character < (s : Int) + (t.length : Int) →
          getSymbolAtPosition source line character = .ok (some (String.mk t))) ∧
        ((¬ ∃ (s : Nat) (t : List Char), isIdentTokenAt l s t ∧ (s : Int) ≤ character ∧
            character < (s : Int) + (t.length : Int)) →
          getSymbolAtPosition source line character = .ok none) ∧
        (∀ c, 0 ≤ character → l.get? character.toNat = some c → isIdentChar c = false →
          getSymbolAtPosition source line character = .ok none))) := by
  constructor
  · intro hge
    unfold getSymbolAtPosition
    rw [if_pos hge]
  · intro l hline hl
    obtain ⟨hlt, _⟩ := List.get?_eq_some.mp hl
    have hniff : ¬ (((splitLines source.data).length : Int) ≤ line) := by omega
    have hred : getSymbolAtPosition source line character =
        (if (l.length : Int) ≤ character then Except.ok none
         else
           match (scanTokens l).find?
              (fun p => decide ((p.1 : Int) ≤ character)
                && decide (character < (p.1 : Int) + p.2.length)) with
           | some p => Except.ok (some (String.mk p.2))
           | none => Except.ok none) := by
      unfold getSymbolAtPosition
      rw [if_neg hniff, if_neg (by omega : ¬ line < 0),
        show (splitLines source.data)[line.toNat]? = some l from by
          rw [← List.get?_eq_getElem?]; exact hl]
    constructor
    · intro hge
      rw [hred, if_pos hge]
    · intro hlt2
      refine ⟨?_, ?_, ?_⟩
      · intro s t htok hsc hct
        rw [hred, if_neg (by omega)]
        have hmem := scanTokens_complete l.length l (Nat.le_refl _) s t htok
        have hpred : (decide ((s : Int) ≤ character)
            && decide (character < (s : Int) + (t.length : Int))) = true := by
          simp only [Bool.and_eq_true, decide_eq_true_eq]
          exact ⟨hsc, hct⟩
        rcases hfind : (scanTokens l).find?
            (fun p => decide ((p.1 : Int) ≤ character)
              && decide (character < (p.1 : Int) + p.2.length)) with _ | q
        · have h1 := List.find?_eq_none.mp hfind (s, t) hmem
          exact absurd hpred h1
        · rw [hfind]
          have hq1 := List.find?_some hfind
          have hq2 := List.mem_of_find?_eq_some hfind
          obtain ⟨sq, tq⟩ := q
          have hqtok := scanTokens_sound l.length l (Nat.le_refl _) sq tq hq2
          simp only [Bool.and_eq_true, decide_eq_true_eq] at hq1
          obtain ⟨hq1a, hq1b⟩ := hq1
          have hcnn : (0 : Int) ≤ character :=
            le_trans (Int.natCast_nonneg s) hsc
          have hcov1 : sq ≤ character.toNat := by omega
          have hcov2 : character.toNat < sq + tq.length := by omega
          have hcov3 : s ≤ character.toNat := by omega
          have hcov4 : character.toNat < s + t.length := by omega
          obtain ⟨hseq, hteq⟩ :=
            isIdentTokenAt_unique hqtok htok hcov1 hcov2 hcov3 hcov4
          rw [hteq]
      · intro hnex
        rw [hred, if_neg (by omega)]
        have hnone : (scanTokens l).find?
            (fun p => decide ((p.1 : Int) ≤ character)
              && decide (character < (p.1 : Int) + p.2.length)) = none := by
          rw [List.find?_eq_none]
          intro q hq hpq
          obtain ⟨sq, tq⟩ := q
          have hqtok := scanTokens_sound l.length l (Nat.le_refl _) sq tq hq
          simp only [Bool.and_eq_true, decide_eq_true_eq] at hpq
          exact hnex ⟨sq, tq, hqtok, hpq.1, hpq.2⟩
        rw [hnone]
      · intro c hcnn hgetc hcf
        rw [hred, if_neg (by omega)]
        have hnone : (scanTokens l).find?
            (fun p => decide ((p.1 : Int) ≤ character)
              && decide (character < (p.1 : Int) + p.2.length)) = none := by
          rw [List.find?_eq_none]
          intro q hq hpq
          obtain ⟨sq, tq⟩ := q
          have hqtok := scanTokens_sound l.length l (Nat.le_refl _) sq tq hq
          simp only [Bool.and_eq_true, decide_eq_true_eq] at hpq
          obtain ⟨hne, hslice, _, hall, _, _⟩ := hqtok
          have hi : character.toNat - sq < tq.length := by omega
          have h2 := hslice (character.toNat - sq) hi
          rw [show sq + (character.toNat - sq) = character.toNat from by omega] at h2
          rw [hgetc] at h2
          exact absurd (hall c (List.get?_mem h2.symm)) (by simp [hcf])
        rw [hnone]

/-- C5 counterexample: the claim asserts that a negative line number yields
"none", but `getSymbolAtPosition` passes the `line >= lines.length` guard,
reads `lines[line] = undefined`, and the `.length` access throws a
`TypeError` instead of returning `null`. -/
theorem getSymbolAtPosition_negative_line_throws :
    getSymbolAtPosition "abc" (-1) 0 =
      Except.error "TypeError: cannot read properties of undefined" ∧
    getSymbolAtPosition "abc" (-1) 0 ≠ Except.ok none := by
  constructor
  · decide
  · decide

theorem getSymbolAtPosition_spec_witness :
    getSymbolAtPosition "foo bar" 0 5 = Except.ok (some "bar") := by
  have htok : isIdentTokenAt ("foo bar".data) 4 ("bar".data) :=
    scanTokens_sound ("foo bar".data.length) ("foo bar".data) (Nat.le_refl _) 4
      ("bar".data) (by decide)
  exact (((getSymbolAtPosition_spec "foo bar" 0 5).2 ("foo bar".data)
    (by decide) (by decide)).2 (by decide)).1 4 ("bar".data) htok (by decide) (by decide)

end Qbit

namespace Qbit

/-- The declarative reading of one match of the function regex
`fn\s+([a-zA-Z_][a-zA-Z0-9_]*)\s*\(([^)]*)\)` at the head of `l`, with name
capture `nm`, parameter capture `ps`, and `rest` the input following the
match.  (No extra maximality conditions are needed: whitespace, identifier
characters and `(` are pairwise disjoint classes and `ps` may not contain
`)`, so this decomposition of a given `l` is unique — see
`tryFnMatch_complete`.) -/
@[reducible]
def fnMatchHere (l nm ps rest : List Char) : Prop :=
  ∃ ws1 ws2,
    l = 'f' :: 'n' :: (ws1 ++ (nm ++ (ws2 ++ '(' :: (ps ++ ')' :: rest)))) ∧
    ws1 ≠ [] ∧ (∀ c ∈ ws1, jsWhitespace c = true) ∧
    (∀ c ∈ ws2, jsWhitespace c = true) ∧
    nm ≠ [] ∧ (∀ c, nm.head? = some c → isIdentStart c = true) ∧
    (∀ c ∈ nm, isIdentChar c = true) ∧
    (∀ c ∈ ps, (c == ')') = false)

theorem tryFnMatch_sound_here {l nm ps rest : List Char}
    (h : tryFnMatch l = some (nm, ps, rest)) : fnMatchHere l nm ps rest :=
  tryFnMatch_sound h

theorem takeWhile_append_of {α} {p : α → Bool} {a b : List α}
    (ha : ∀ x ∈ a, p x = true) (hb : ∀ x, b.head? = some x → p x = false) :
    (a ++ b).takeWhile p = a ∧ (a ++ b).dropWhile p = b := by
  induction a with
  | nil =>
    simp only [List.nil_append]
    cases b with
    | nil => exact ⟨rfl, rfl⟩
    | cons x b =>
      have hx : p x = false := hb x rfl
      exact ⟨List.takeWhile_cons_of_neg (by simp [hx]),
        List.dropWhile_cons_of_neg (by simp [hx])⟩
  | cons x a ih =>
    have hx : p x = true := ha x (List.mem_cons_self _ _)
    obtain ⟨h1, h2⟩ := ih (fun y hy => ha y (List.mem_cons_of_mem _ hy))
    rw [List.cons_append, List.takeWhile_cons_of_pos hx, List.dropWhile_cons_of_pos hx]
    exact ⟨by rw [h1], h2⟩

theorem tryFnMatch_fn (rest0 : List Char) :
    tryFnMatch ('f' :: 'n' :: rest0) =
      (if (rest0.takeWhile jsWhitespace).isEmpty then none
       else
         match rest0.dropWhile jsWhitespace with
         | [] => none
         | c :: cs1 =>
           if isIdentStart c then
             match ((cs1.dropWhile isIdentChar).dropWhile jsWhitespace) with
             | '(' :: r4 =>
               match r4.dropWhile (fun x => !(x == ')')) with
               | ')' :: r5 =>
                 some (c :: cs1.takeWhile isIdentChar, r4.takeWhile (fun x => !(x == ')')), r5)
               | _ => none
             | _ => none
           else none) := rfl

/-- Per-position completeness and determinism: any declarative match at the
head of `l` is exactly what `tryFnMatch` finds there. -/
theorem tryFnMatch_complete {l nm ps rest : List Char}
    (h : fnMatchHere l nm ps rest) : tryFnMatch l = some (nm, ps, rest) := by
  obtain ⟨ws1, ws2, hl, hws1ne, hws1, hws2, hnmne, hhead, hall, hps⟩ := h
  subst hl
  obtain ⟨n0, nm1, rfl⟩ : ∃ n0 nm1, nm = n0 :: nm1 := by
    cases nm with
    | nil => exact absurd rfl hnmne
    | cons a t => exact ⟨a, t, rfl⟩
  obtain ⟨w1, ws1t, rfl⟩ : ∃ w1 t, ws1 = w1 :: t := by
    cases ws1 with
    | nil => exact absurd rfl hws1ne
    | cons a t => exact ⟨a, t, rfl⟩
  have hn0start : isIdentStart n0 = true := hhead n0 rfl
  have hn0char : isIdentChar n0 = true := isIdentChar_of_isIdentStart hn0start
  have hb1 : ∀ x, ((n0 :: nm1) ++ (ws2 ++ '(' :: (ps ++ ')' :: rest))).head? = some x →
      jsWhitespace x = false := by
    intro x hx
    simp only [List.cons_append, List.head?_cons, Option.some.injEq] at hx
    subst hx
    exact jsWhitespace_eq_false_of_isIdentChar hn0char
  obtain ⟨ht1, hd1⟩ := takeWhile_append_of hws1 hb1
  have hb2 : ∀ x, (ws2 ++ '(' :: (ps ++ ')' :: rest)).head? = some x →
      isIdentChar x = false := by
    cases ws2 with
    | nil =>
      intro x hx
      simp only [List.nil_append, List.head?_cons, Option.some.injEq] at hx
      subst hx
      decide
    | cons w2 ws2t =>
      intro x hx
      simp only [List.cons_append, List.head?_cons, Option.some.injEq] at hx
      subst hx
      exact not_isIdentChar_of_jsWhitespace (hws2 w2 (List.mem_cons_self _ _))
  obtain ⟨ht2, hd2⟩ :=
    takeWhile_append_of (fun y hy => hall y (List.mem_cons_of_mem _ hy)) hb2
  have hb3 : ∀ x, ('(' :: (ps ++ ')' :: rest)).head? = some x → jsWhitespace x = false := by
    intro x hx
    simp only [List.head?_cons, Option.some.injEq] at hx
    subst hx
    decide
  obtain ⟨ht3, hd3⟩ := takeWhile_append_of hws2 hb3
  have hps' : ∀ x ∈ ps, (!(x == ')')) = true := by
    intro x hx
    simp [hps x hx]
  have hb4 : ∀ x, (')' :: rest).head? = some x → (!(x == ')')) = false := by
    intro x hx
    simp only [List.head?_cons, Option.some.injEq] at hx
    subst hx
    decide
  obtain ⟨ht4, hd4⟩ := takeWhile_append_of hps' hb4
  rw [tryFnMatch_fn, ht1, hd1]
  rw [if_neg (show ¬ ((w1 :: ws1t).isEmpty = true) from by simp)]
  rw [List.cons_append]
  split
  case h_1 heq => exact absurd heq (by simp)
  case h_2 c cs1 heq =>
    injection heq with hc hcs
    subst hc
    subst hcs
    rw [if_pos hn0start, hd2, hd3]
    split
    case h_1 r4 heq2 =>
      injection heq2 with _ hr4
      subst hr4
      rw [hd4]
      split
      case h_1 r5 heq3 =>
        injection heq3 with _ hr5
        subst hr5
        rw [ht2, ht4]
      case h_2 hno =>
        exact ((hno rest rfl).elim)
    case h_2 hno =>
      exact ((hno (ps ++ ')' :: rest) rfl).elim)

end Qbit

namespace Qbit

/-- The scan of `scanFnsF`, instrumented with the 0-based start and end
(one past the last character) of each match, relative to the head of the
scanned list.  Same recursion, same fuel discipline; `scanFns` is its
capture projection (`scanFns_eq_map_scanFnsPos`). -/
def scanFnsPosF : Nat → List Char → List ((Nat × Nat) × List Char × List Char)
  | 0, _ => []
  | _ + 1, [] => []
  | fuel + 1, c :: cs =>
    match tryFnMatch (c :: cs) with
    | some (nm, ps, rest) =>
      ((0, (c :: cs).length - rest.length), nm, ps) ::
        (scanFnsPosF fuel rest).map
          (fun e => ((e.1.1 + ((c :: cs).length - rest.length),
                      e.1.2 + ((c :: cs).length - rest.length)), e.2))
    | none => (scanFnsPosF fuel cs).map (fun e => ((e.1.1 + 1, e.1.2 + 1), e.2))

theorem scanFnsPosF_irrel : ∀ (f₁ : Nat) (f₂ : Nat) (l : List Char),
    l.length < f₁ → l.length < f₂ → scanFnsPosF f₁ l = scanFnsPosF f₂ l := by
  intro f₁
  induction f₁ with
  | zero => intro f₂ l h _; exact absurd h (Nat.not_lt_zero _)
  | succ f ih =>
    intro f₂ l h1 h2
    match f₂, l with
    | f₂ + 1, [] => rfl
    | f₂ + 1, c :: cs =>
      simp only [scanFnsPosF]
      split
      case h_1 nm ps rest hm =>
        have hr : rest.length < (c :: cs).length := tryFnMatch_length hm
        simp only [List.length_cons] at hr h1 h2
        rw [ih f₂ rest (by omega) (by omega)]
      case h_2 =>
        simp only [List.length_cons] at h1 h2
        rw [ih f₂ cs (by omega) (by omega)]

/-- The positioned scan of a whole list. -/
def scanFnsPos (l : List Char) : List ((Nat × Nat) × List Char × List Char) :=
  scanFnsPosF (l.length + 1) l

theorem scanFnsPos_nil : scanFnsPos [] = [] := rfl

theorem scanFnsPos_cons (c : Char) (cs : List Char) :
    scanFnsPos (c :: cs) =
      match tryFnMatch (c :: cs) with
      | some (nm, ps, rest) =>
        ((0, (c :: cs).length - rest.length), nm, ps) ::
          (scanFnsPos rest).map
            (fun e => ((e.1.1 + ((c :: cs).length - rest.length),
                        e.1.2 + ((c :: cs).length - rest.length)), e.2))
      | none => (scanFnsPos cs).map (fun e => ((e.1.1 + 1, e.1.2 + 1), e.2)) := by
  show scanFnsPosF (cs.length + 2) (c :: cs) = _
  simp only [scanFnsPosF]
  split
  case h_1 nm ps rest hm =>
    have hr : rest.length < (c :: cs).length := tryFnMatch_length hm
    simp only [List.length_cons] at hr
    rw [scanFnsPosF_irrel (cs.length + 1) (rest.length + 1) rest (by omega) (by omega)]
    rfl
  case h_2 =>
    rw [scanFnsPosF_irrel (cs.length + 1) (cs.length + 1) cs (by omega) (by omega)]
    rfl

/-- `scanFns` returns exactly the captures of the positioned scan. -/
theorem scanFns_eq_map_scanFnsPos : ∀ (N : Nat) (l : List Char), l.length ≤ N →
    scanFns l = (scanFnsPos l).map (fun e => e.2) := by
  intro N
  induction N with
  | zero =>
    intro l hlen
    have h0 : l = [] := List.length_eq_zero.mp (Nat.le_zero.mp hlen)
    subst h0
    rfl
  | succ N ih =>
    intro l hlen
    cases l with
    | nil => rfl
    | cons c cs =>
      rw [scanFns_cons, scanFnsPos_cons]
      rcases htry : tryFnMatch (c :: cs) with _ | ⟨nm0, ps0, rest⟩
      · show scanFns cs =
          List.map (fun e => e.2)
            (List.map (fun e => ((e.1.1 + 1, e.1.2 + 1), e.2)) (scanFnsPos cs))
        rw [List.map_map, ih cs (by simp only [List.length_cons] at hlen; omega)]
        rfl
      · have hr : rest.length < (c :: cs).length := tryFnMatch_length htry
        simp only [List.length_cons] at hr hlen
        show (nm0, ps0) :: scanFns rest =
          List.map (fun e => e.2)
            ((((0, (c :: cs).length - rest.length), nm0, ps0)) ::
              List.map (fun e => ((e.1.1 + ((c :: cs).length - rest.length),
                e.1.2 + ((c :: cs).length - rest.length)), e.2)) (scanFnsPos rest))
        rw [List.map_cons, List.map_map, ih rest (by omega)]
        rfl

theorem fnMatchHere_decomp {l nm ps rest : List Char} (h : fnMatchHere l nm ps rest) :
    ∃ A, l = A ++ rest ∧ A ≠ [] := by
  obtain ⟨ws1, ws2, hl, hrest⟩ := h
  refine ⟨'f' :: 'n' :: (ws1 ++ (nm ++ (ws2 ++ '(' :: (ps ++ [')'])))), ?_, by simp⟩
  rw [hl]
  simp [List.append_assoc]

/-- A match at the head of `l` consumes `l.length - rest.length ≥ 1`
characters, and dropping past them lands in `rest`. -/
theorem fnMatchHere_drop {l nm ps rest : List Char} (h : fnMatchHere l nm ps rest) :
    rest.length < l.length ∧
    ∀ k, l.drop ((l.length - rest.length) + k) = rest.drop k := by
  obtain ⟨A, hA, hAne⟩ := fnMatchHere_decomp h
  have hlen : l.length = A.length + rest.length := by rw [hA, List.length_append]
  have hApos : 0 < A.length := List.length_pos.mpr hAne
  constructor
  · omega
  · intro k
    have e1 : l.length - rest.length = A.length := by omega
    rw [e1, hA, ← List.drop_drop, List.drop_left]

end Qbit

namespace Qbit

/-- Soundness: every entry of the positioned scan is a declarative match at
its recorded start, its recorded end is one past the match, and the span is
non-empty and within the line. -/
theorem scanFnsPos_sound : ∀ (N : Nat) (l : List Char), l.length ≤ N →
    ∀ e, e ∈ scanFnsPos l →
      ∃ rest, fnMatchHere (l.drop e.1.1) e.2.1 e.2.2 rest ∧ l.drop e.1.2 = rest ∧
        e.1.1 < e.1.2 ∧ e.1.2 ≤ l.length := by
  intro N
  induction N with
  | zero =>
    intro l hlen e hmem
    have h0 : l = [] := List.length_eq_zero.mp (Nat.le_zero.mp hlen)
    subst h0
    rw [scanFnsPos_nil] at hmem
    exact absurd hmem (List.not_mem_nil _)
  | succ N ih =>
    intro l hlen e hmem
    cases l with
    | nil =>
      rw [scanFnsPos_nil] at hmem
      exact absurd hmem (List.not_mem_nil _)
    | cons c cs =>
      rw [scanFnsPos_cons] at hmem
      rcases htry : tryFnMatch (c :: cs) with _ | ⟨nm0, ps0, rest0⟩
      · rw [htry] at hmem
        rw [List.mem_map] at hmem
        obtain ⟨e', he', rfl⟩ := hmem
        obtain ⟨rest', h1, h2, h3, h4⟩ :=
          ih cs (by simp only [List.length_cons] at hlen; omega) e' he'
        refine ⟨rest', ?_, ?_, ?_, ?_⟩
        · show fnMatchHere ((c :: cs).drop (e'.1.1 + 1)) e'.2.1 e'.2.2 rest'
          rw [List.drop_succ_cons]
          exact h1
        · show (c :: cs).drop (e'.1.2 + 1) = rest'
          rw [List.drop_succ_cons]
          exact h2
        · show e'.1.1 + 1 < e'.1.2 + 1
          omega
        · show e'.1.2 + 1 ≤ (c :: cs).length
          simp only [List.length_cons]
          omega
      · rw [htry] at hmem
        have hm : fnMatchHere (c :: cs) nm0 ps0 rest0 := tryFnMatch_sound_here htry
        obtain ⟨hrl, hdrops⟩ := fnMatchHere_drop hm
        have hdrop0 : (c :: cs).drop ((c :: cs).length - rest0.length) = rest0 := by
          have h0 := hdrops 0
          rwa [Nat.add_zero, List.drop_zero] at h0
        rcases List.mem_cons.mp hmem with rfl | htl
        · refine ⟨rest0, ?_, hdrop0, ?_, ?_⟩
          · show fnMatchHere ((c :: cs).drop 0) nm0 ps0 rest0
            rw [List.drop_zero]
            exact hm
          · show 0 < (c :: cs).length - rest0.length
            omega
          · show (c :: cs).length - rest0.length ≤ (c :: cs).length
            omega
        · rw [List.mem_map] at htl
          obtain ⟨e', he', rfl⟩ := htl
          have hlen' : rest0.length ≤ N := by
            simp only [List.length_cons] at hlen hrl
            omega
          obtain ⟨rest', h1, h2, h3, h4⟩ := ih rest0 hlen' e' he'
          refine ⟨rest', ?_, ?_, ?_, ?_⟩
          · show fnMatchHere ((c :: cs).drop (e'.1.1 + ((c :: cs).length - rest0.length)))
              e'.2.1 e'.2.2 rest'
            rw [Nat.add_comm, hdrops]
            exact h1
          · show (c :: cs).drop (e'.1.2 + ((c :: cs).length - rest0.length)) = rest'
            rw [Nat.add_comm, hdrops]
            exact h2
          · show e'.1.1 + ((c :: cs).length - rest0.length) <
              e'.1.2 + ((c :: cs).length - rest0.length)
            omega
          · show e'.1.2 + ((c :: cs).length - rest0.length) ≤ (c :: cs).length
            omega

/-- Completeness: every declarative match at a position `i` of `l` is either
reported (with exactly its captures) or begins strictly inside the span of a
reported match — exactly the positions a global-regex scan skips, since the
search resumes at the end of each reported match. -/
theorem scanFnsPos_complete : ∀ (N : Nat) (l : List Char), l.length ≤ N →
    ∀ i nm ps rest, fnMatchHere (l.drop i) nm ps rest →
      (∃ e, e ∈ scanFnsPos l ∧ e.1.1 = i ∧ e.2 = (nm, ps)) ∨
      (∃ e, e ∈ scanFnsPos l ∧ e.1.1 < i ∧ i < e.1.2) := by
  intro N
  induction N with
  | zero =>
    intro l hlen i nm ps rest h
    have h0 : l = [] := List.length_eq_zero.mp (Nat.le_zero.mp hlen)
    subst h0
    obtain ⟨ws1, ws2, hl, hrest⟩ := h
    rw [List.drop_nil] at hl
    exact absurd hl (by simp)
  | succ N ih =>
    intro l hlen i nm ps rest h
    cases l with
    | nil =>
      obtain ⟨ws1, ws2, hl, hrest⟩ := h
      rw [List.drop_nil] at hl
      exact absurd hl (by simp)
    | cons c cs =>
      rcases htry : tryFnMatch (c :: cs) with _ | ⟨nm0, ps0, rest0⟩
      · cases i with
        | zero =>
          rw [List.drop_zero] at h
          have hcomp := tryFnMatch_complete h
          rw [htry] at hcomp
          exact absurd hcomp (by simp)
        | succ j =>
          rw [List.drop_succ_cons] at h
          have hlen' : cs.length ≤ N := by simp only [List.length_cons] at hlen; omega
          rcases ih cs hlen' j nm ps rest h with ⟨e, he, h1, h2⟩ | ⟨e, he, h1, h2⟩
          · refine Or.inl ⟨((e.1.1 + 1, e.1.2 + 1), e.2), ?_, ?_, h2⟩
            · rw [scanFnsPos_cons, htry]
              exact List.mem_map.mpr ⟨e, he, rfl⟩
            · show e.1.1 + 1 = j + 1
              omega
          · refine Or.inr ⟨((e.1.1 + 1, e.1.2 + 1), e.2), ?_, ?_, ?_⟩
            · rw [scanFnsPos_cons, htry]
              exact List.mem_map.mpr ⟨e, he, rfl⟩
            · show e.1.1 + 1 < j + 1
              omega
            · show j + 1 < e.1.2 + 1
              omega
      · have hm : fnMatchHere (c :: cs) nm0 ps0 rest0 := tryFnMatch_sound_here htry
        obtain ⟨hrl, hdrops⟩ := fnMatchHere_drop hm
        have hmem0 : ((0, (c :: cs).length - rest0.length), nm0, ps0) ∈
            scanFnsPos (c :: cs) := by
          rw [scanFnsPos_cons, htry]
          exact List.mem_cons_self _ _
        by_cases hi0 : i = 0
        · subst hi0
          rw [List.drop_zero] at h
          have hcomp := tryFnMatch_complete h
          rw [htry] at hcomp
          simp only [Option.some.injEq, Prod.mk.injEq] at hcomp
          obtain ⟨h1, h2, h3⟩ := hcomp
          refine Or.inl ⟨((0, (c :: cs).length - rest0.length), nm0, ps0), hmem0, rfl, ?_⟩
          show (nm0, ps0) = (nm, ps)
          rw [h1, h2]
        · by_cases him : i < (c :: cs).length - rest0.length
          · refine Or.inr ⟨((0, (c :: cs).length - rest0.length), nm0, ps0), hmem0, ?_, ?_⟩
            · show 0 < i
              omega
            · exact him
          · have hdropeq : (c :: cs).drop i =
                rest0.drop (i - ((c :: cs).length - rest0.length)) := by
              have hd := hdrops (i - ((c :: cs).length - rest0.length))
              rwa [show ((c :: cs).length - rest0.length) +
                (i - ((c :: cs).length - rest0.length)) = i from by omega] at hd
            rw [hdropeq] at h
            have hlen' : rest0.length ≤ N := by
              simp only [List.length_cons] at hlen hrl
              omega
            rcases ih rest0 hlen' _ nm ps rest h with ⟨e, he, h1, h2⟩ | ⟨e, he, h1, h2⟩
            · refine Or.inl ⟨((e.1.1 + ((c :: cs).length - rest0.length),
                e.1.2 + ((c :: cs).length - rest0.length)), e.2), ?_, ?_, h2⟩
              · rw [scanFnsPos_cons, htry]
                exact List.mem_cons_of_mem _ (List.mem_map.mpr ⟨e, he, rfl⟩)
              · show e.1.1 + ((c :: cs).length - rest0.length) = i
                omega
            · refine Or.inr ⟨((e.1.1 + ((c :: cs).length - rest0.length),
                e.1.2 + ((c :: cs).length - rest0.length)), e.2), ?_, ?_, ?_⟩
              · rw [scanFnsPos_cons, htry]
                exact List.mem_cons_of_mem _ (List.mem_map.mpr ⟨e, he, rfl⟩)
              · show e.1.1 + ((c :: cs).length - rest0.length) < i
                omega
              · show i < e.1.2 + ((c :: cs).length - rest0.length)
                omega

/-- Reported matches come in scan order and never overlap: each match ends
at or before the next one starts. -/
theorem scanFnsPos_chain : ∀ (N : Nat) (l : List Char), l.length ≤ N →
    List.Chain' (fun (a b : (Nat × Nat) × List Char × List Char) => a.1.2 ≤ b.1.1)
      (scanFnsPos l) := by
  intro N
  induction N with
  | zero =>
    intro l hlen
    have h0 : l = [] := List.length_eq_zero.mp (Nat.le_zero.mp hlen)
    subst h0
    exact List.chain'_nil
  | succ N ih =>
    intro l hlen
    cases l with
    | nil => exact List.chain'_nil
    | cons c cs =>
      rw [scanFnsPos_cons]
      rcases htry : tryFnMatch (c :: cs) with _ | ⟨nm0, ps0, rest0⟩
      · show List.Chain' _
          ((scanFnsPos cs).map (fun e => ((e.1.1 + 1, e.1.2 + 1), e.2)))
        rw [List.chain'_map]
        exact (ih cs (by simp only [List.length_cons] at hlen; omega)).imp
          (fun a b hab => by
            show a.1.2 + 1 ≤ b.1.1 + 1
            omega)
      · have hr : rest0.length < (c :: cs).length := tryFnMatch_length htry
        simp only [List.length_cons] at hr hlen
        show List.Chain' _
          ((((0, (c :: cs).length - rest0.length), nm0, ps0)) ::
            (scanFnsPos rest0).map
              (fun e => ((e.1.1 + ((c :: cs).length - rest0.length),
                e.1.2 + ((c :: cs).length - rest0.length)), e.2)))
        rw [List.chain'_cons']
        constructor
        · intro y hy
          rw [List.head?_map] at hy
          cases hh : (scanFnsPos rest0).head? with
          | none =>
            rw [hh] at hy
            simp at hy
          | some x0 =>
            rw [hh] at hy
            simp at hy
            subst hy
            show (c :: cs).length - rest0.length ≤
              x0.1.1 + ((c :: cs).length - rest0.length)
            omega
        · rw [List.chain'_map]
          exact (ih rest0 (by omega)).imp
            (fun a b hab => by
              show a.1.2 + ((c :: cs).length - rest0.length) ≤
                b.1.1 + ((c :: cs).length - rest0.length)
              omega)

end Qbit

namespace Qbit

/-- Flat-mapping over an enumerated list yields results keyed in
non-decreasing index order, when each block's results carry that block's
index. -/
theorem flatMap_enumFrom_pairwise {α β : Type} (g : Nat × α → List β) (key : β → Nat)
    (hk : ∀ p b, b ∈ g p → key b = p.1) :
    ∀ (xs : List α) (n : Nat),
      List.Pairwise (fun b b' => key b ≤ key b') ((xs.enumFrom n).flatMap g) := by
  intro xs
  induction xs with
  | nil =>
    intro n
    exact List.Pairwise.nil
  | cons x xs ih =>
    intro n
    rw [List.enumFrom_cons, List.flatMap_cons, List.pairwise_append]
    refine ⟨?_, ih (n + 1), ?_⟩
    · apply List.pairwise_of_forall_mem_list
      intro a ha b hb
      rw [hk _ a ha, hk _ b hb]
    · intro a ha b hb
      rw [List.mem_flatMap] at hb
      obtain ⟨q, hq, hbq⟩ := hb
      obtain ⟨q1, q2⟩ := q
      rw [hk _ a ha, hk _ b hbq]
      have h1 := (List.mem_enumFrom hq).1
      show n ≤ q1
      omega

/-- The declarations come out sorted by line: the outer flat-map over
`lines.enum` emits line 0's declarations first, then line 1's, and so on. -/
theorem getFunctionDefinitions_pairwise (source : String) :
    List.Pairwise (fun d d' => d.line ≤ d'.line) (getFunctionDefinitions source) := by
  unfold getFunctionDefinitions
  rw [List.enum_eq_enumFrom]
  exact flatMap_enumFrom_pairwise
    (fun q => (scanFns q.2).map
      (fun m => ({ name := String.mk m.1, params := splitParams m.2, line := q.1 } : FnDecl)))
    (fun d : FnDecl => d.line)
    (fun p b hb => by
      rw [List.mem_map] at hb
      obtain ⟨m, hm, rfl⟩ := hb
      rfl)
    (splitLines source.data) 0

/-- Restricted to any single line `i` of the split source, the output is
exactly one declaration per match of the scanner on that line, in scan
order, built from the match's captures. -/
theorem getFunctionDefinitions_filter_line {source : String} {i : Nat} {l : List Char}
    (hl : (splitLines source.data).get? i = some l) :
    (getFunctionDefinitions source).filter (fun d => d.line == i) =
      (scanFns l).map
        (fun m => { name := String.mk m.1, params := splitParams m.2, line := i }) := by
  obtain ⟨h, hget⟩ := List.get?_eq_some.mp hl
  unfold getFunctionDefinitions
  rw [List.filter_flatMap]
  have key := flatMap_enum_single
    (fun q => ((scanFns q.2).map
      (fun m => ({ name := String.mk m.1, params := splitParams m.2, line := q.1 } : FnDecl))).filter
      (fun d => d.line == i))
    (splitLines source.data) i h ?_
  · rw [key, hget]
    apply List.filter_eq_self.mpr
    intro d hd
    rw [List.mem_map] at hd
    obtain ⟨m, hm, rfl⟩ := hd
    simp
  · intro k hk hne
    rw [List.filter_eq_nil_iff]
    intro d hd
    rw [List.mem_map] at hd
    obtain ⟨m, hm, rfl⟩ := hd
    simp [hne]

end Qbit

namespace Qbit

/-- C8: `getFunctionDefinitions` returns, per line in order, one declaration
for each match of the pattern `fn` + whitespace + identifier + `(params)`,
for every source. Conjuncts: (1) on the source `"fn add(a, b) \x7b\x7d"`
plus a trailing newline it returns exactly the declaration `add` with
parameters `["a", "b"]` on line 0; (2) for every source the declarations are
ordered by line; (3) for every source and every line index `i`, the
declarations of line `i` are exactly one per scanner match on that line, in
scan order, with name the identifier capture, params the comma-split,
trimmed, empty-filtered parameter capture, and line `i`; (4) the scanner's
matches are the captures of a positioned scan; (5) soundness: every
positioned-scan entry is a genuine regex match (`fnMatchHere`: `fn`, then
non-empty whitespace, then an identifier, then optional whitespace, then a
parenthesized `)`-free parameter list) at its recorded position; (6)
completeness: every position where the pattern matches is either reported
with exactly its captures or lies strictly inside an earlier reported match
(exactly the positions a JavaScript global-regex scan skips, resuming at
each match's end); (7) reported matches are in order and non-overlapping. -/
theorem getFunctionDefinitions_spec :
    getFunctionDefinitions "fn add(a, b) \x7b\x7d\n" =
      [{ name := "add", params := ["a", "b"], line := 0 }] ∧
    (∀ source : String,
      List.Pairwise (fun d d' => d.line ≤ d'.line) (getFunctionDefinitions source)) ∧
    (∀ (source : String) (i : Nat) (l : List Char),
      (splitLines source.data).get? i = some l →
      (getFunctionDefinitions source).filter (fun d => d.line == i) =
        (scanFns l).map
          (fun m => { name := String.mk m.1, params := splitParams m.2, line := i })) ∧
    (∀ l : List Char, scanFns l = (scanFnsPos l).map (fun e => e.2)) ∧
    (∀ (l : List Char) (e : (Nat × Nat) × List Char × List Char), e ∈ scanFnsPos l →
      ∃ rest, fnMatchHere (l.drop e.1.1) e.2.1 e.2.2 rest ∧ l.drop e.1.2 = rest ∧
        e.1.1 < e.1.2 ∧ e.1.2 ≤ l.length) ∧
    (∀ (l : List Char) (i : Nat) (nm ps rest : List Char),
      fnMatchHere (l.drop i) nm ps rest →
      (∃ e, e ∈ scanFnsPos l ∧ e.1.1 = i ∧ e.2 = (nm, ps)) ∨
      (∃ e, e ∈ scanFnsPos l ∧ e.1.1 < i ∧ i < e.1.2)) ∧
    (∀ l : List Char,
      List.Chain' (fun (a b : (Nat × Nat) × List Char × List Char) => a.1.2 ≤ b.1.1)
        (scanFnsPos l)) := by
  refine ⟨by decide, getFunctionDefinitions_pairwise, ?_, ?_, ?_, ?_, ?_⟩
  · intro source i l hl
    exact getFunctionDefinitions_filter_line hl
  · intro l
    exact scanFns_eq_map_scanFnsPos l.length l (Nat.le_refl _)
  · intro l e he
    exact scanFnsPos_sound l.length l (Nat.le_refl _) e he
  · intro l i nm ps rest h
    exact scanFnsPos_complete l.length l (Nat.le_refl _) i nm ps rest h
  · intro l
    exact scanFnsPos_chain l.length l (Nat.le_refl _)

/-- Witness for C8: the per-line conjunct applied to the concrete source
`"fn add(a, b) \x7b\x7d"` plus a trailing newline at line 0. -/
theorem getFunctionDefinitions_spec_witness :
    (getFunctionDefinitions "fn add(a, b) \x7b\x7d\n").filter (fun d => d.line == 0) =
      (scanFns "fn add(a, b) \x7b\x7d".data).map
        (fun m => { name := String.mk m.1, params := splitParams m.2, line := 0 }) :=
  getFunctionDefinitions_spec.2.2.1 "fn add(a, b) \x7b\x7d\n" 0
    ("fn add(a, b) \x7b\x7d".data) (by decide)

end Qbit
